import Mathlib

/-!
# Verification of the kvstore durable key-value engine

Shallow embedding of the `kvstore` Python package: the WAL-backed engine
(`kvstore/store.py`), the replicated engine (`kvstore/replicated_store.py`),
the HTTP dispatch layers (`kvstore/server.py`, `kvstore/cluster_server.py`)
and the indexed wrapper (`kvstore/indexed_store.py`), together with proofs
of the spec's testable properties.

Values are the JSON-shaped universe of the spec (§3).  The model includes
executable embeddings of the encoding pipeline used by the WAL
(`json.dumps` / `json.loads`, UTF-8, base64) with proved round-trips, so
that replay equivalence is settled against the real on-disk line format.

Modelling notes (divergences, all confined to corners no theorem relies on):
* JSON numbers are embedded as integers; the parser rejects fraction and
  exponent forms which Python would read as floats (floating point is out
  of scope).  Likewise the non-standard `NaN`/`Infinity` literals Python
  accepts are rejected.
* Python strings may hold lone surrogates (accepted by `json.loads`); Lean
  `Char` cannot, so the parser rejects a lone surrogate escape.
* `json.dumps` is modelled with its default `ensure_ascii=True` behaviour,
  so encoder output is pure ASCII.
* Python `dict` key equality (`1 == True == 1.0`) is modelled as structural
  equality of the embedded values.

The WAL file is read back in text mode, so line splitting follows
universal newlines: `"\n"`, `"\r"` and `"\r\n"` all terminate a line
(`fileLines`).  A key containing a carriage return — legal under the
spec's tab/newline-only restriction — therefore splits its own record on
replay and the write is silently lost; the C1 and C6 counterexamples
exhibit this.
-/

namespace KV

/-- JSON-shaped values (spec §3): null, bool, integer, string, sequence,
string-keyed mapping.  Python objects flowing through the store. -/
inductive JVal where
  | null
  | bool (b : Bool)
  | num (n : Int)
  | str (s : String)
  | arr (elems : List JVal)
  | obj (fields : List (String × JVal))

mutual

def JVal.beq : JVal → JVal → Bool
  | .null, .null => true
  | .bool a, .bool b => a == b
  | .num a, .num b => a == b
  | .str a, .str b => a == b
  | .arr xs, .arr ys => beqList xs ys
  | .obj fs, .obj gs => beqFields fs gs
  | _, _ => false

def beqList : List JVal → List JVal → Bool
  | [], [] => true
  | x :: xs, y :: ys => JVal.beq x y && beqList xs ys
  | _, _ => false

def beqFields : List (String × JVal) → List (String × JVal) → Bool
  | [], [] => true
  | (k, v) :: fs, (l, w) :: gs => k == l && JVal.beq v w && beqFields fs gs
  | _, _ => false

end

mutual

theorem JVal.beq_iff : ∀ (a b : JVal), (JVal.beq a b = true) ↔ a = b
  | .null, b => by cases b <;> simp [JVal.beq]
  | .bool a, b => by cases b <;> simp [JVal.beq]
  | .num a, b => by cases b <;> simp [JVal.beq]
  | .str a, b => by cases b <;> simp [JVal.beq]
  | .arr xs, b => by
      cases b <;> simp [JVal.beq]
      exact beqList_iff xs _
  | .obj fs, b => by
      cases b <;> simp [JVal.beq]
      exact beqFields_iff fs _

theorem beqList_iff : ∀ (xs ys : List JVal), (beqList xs ys = true) ↔ xs = ys
  | [], ys => by cases ys <;> simp [beqList]
  | _ :: _, [] => by simp [beqList]
  | x :: xs, y :: ys => by
      simp [beqList, JVal.beq_iff x y, beqList_iff xs ys]

theorem beqFields_iff :
    ∀ (fs gs : List (String × JVal)), (beqFields fs gs = true) ↔ fs = gs
  | [], gs => by cases gs <;> simp [beqFields]
  | _ :: _, [] => by simp [beqFields]
  | (k, v) :: fs, (l, w) :: gs => by
      simp [beqFields, JVal.beq_iff v w, beqFields_iff fs gs, Prod.ext_iff]

end

instance : DecidableEq JVal := fun a b => decidable_of_iff _ (JVal.beq_iff a b)

/-- No duplicates in a key list (Python `dict` keys are unique). -/
def keysNodup : List String → Bool
  | [] => true
  | k :: rest => (!rest.contains k) && keysNodup rest

mutual
/-- Well-formedness: every embedded object has duplicate-free keys (true of
every value a Python `dict` can actually hold). -/
def JVal.wf : JVal → Bool
  | .null => true
  | .bool _ => true
  | .num _ => true
  | .str _ => true
  | .arr xs => wfList xs
  | .obj fs => keysNodup (fs.map Prod.fst) && wfFields fs

def wfList : List JVal → Bool
  | [] => true
  | x :: xs => x.wf && wfList xs

def wfFields : List (String × JVal) → Bool
  | [] => true
  | f :: fs => f.2.wf && wfFields fs
end

/-! ## The in-memory map

A Python `dict` keyed by (hashable) values: an association list in
insertion order.  Assignment to an existing key updates in place, keeping
the key's position, exactly as a `dict` does. -/

/-- `d[k] = v` on a Python dict. -/
def storeSet : List (JVal × JVal) → JVal → JVal → List (JVal × JVal)
  | [], k, v => [(k, v)]
  | (k', v') :: rest, k, v =>
    if k' = k then (k', v) :: rest else (k', v') :: storeSet rest k v

/-- `d.pop(k, None)` on a Python dict. -/
def storePop : List (JVal × JVal) → JVal → List (JVal × JVal)
  | [], _ => []
  | (k', v') :: rest, k =>
    if k' = k then rest else (k', v') :: storePop rest k

/-- `d.get(k)` on a Python dict, `none` when the key is absent. -/
def storeGet : List (JVal × JVal) → JVal → Option JVal
  | [], _ => none
  | (k', v') :: rest, k => if k' = k then some v' else storeGet rest k

/-- The engine's in-memory map `self._store`. -/
abbrev Store := List (JVal × JVal)

/-! ## `json.dumps` (default options: `ensure_ascii=True`,
separators `", "` and `": "`) -/

/-- Decimal digits of a natural number, most significant first. -/
def natDigits (n : Nat) : List Char :=
  if h : n < 10 then [Char.ofNat (48 + n)]
  else natDigits (n / 10) ++ [Char.ofNat (48 + n % 10)]
termination_by n
decreasing_by exact Nat.div_lt_self (by omega) (by omega)

/-- `str(n)` for a Python int. -/
def intChars (n : Int) : List Char :=
  if n < 0 then '-' :: natDigits (-n).toNat else natDigits n.toNat

/-- Lowercase hex digit. -/
def hexDigit (d : Nat) : Char :=
  if d < 10 then Char.ofNat (48 + d) else Char.ofNat (87 + d)

/-- Four lowercase hex digits, as in a `\uXXXX` escape. -/
def hex4 (n : Nat) : List Char :=
  [hexDigit (n / 4096 % 16), hexDigit (n / 256 % 16),
   hexDigit (n / 16 % 16), hexDigit (n % 16)]

def lbrace : Char := Char.ofNat 123
def rbrace : Char := Char.ofNat 125

/-- How `json.dumps` renders one character of a string: `ESCAPE_DCT`
named escapes, `\uXXXX` (with a surrogate pair above `0xFFFF`) for
characters outside printable ASCII, the character itself otherwise. -/
def escapeChar (c : Char) : List Char :=
  if c = '"' then ['\\', '"']
  else if c = '\\' then ['\\', '\\']
  else if c = '\n' then ['\\', 'n']
  else if c = '\t' then ['\\', 't']
  else if c = '\r' then ['\\', 'r']
  else if c.toNat = 8 then ['\\', 'b']
  else if c.toNat = 12 then ['\\', 'f']
  else if c.toNat < 32 || c.toNat ≥ 127 then
    if c.toNat < 65536 then '\\' :: 'u' :: hex4 c.toNat
    else
      ('\\' :: 'u' :: hex4 (55296 + (c.toNat - 65536) / 1024)) ++
      ('\\' :: 'u' :: hex4 (56320 + (c.toNat - 65536) % 1024))
  else [c]

/-- `json.dumps` of a Python str. -/
def strDump (s : String) : List Char :=
  '"' :: (s.data.map escapeChar).flatten ++ ['"']

mutual
/-- `json.dumps(v)` with default options. -/
def JVal.dumps : JVal → List Char
  | .null => "null".data
  | .bool true => "true".data
  | .bool false => "false".data
  | .num n => intChars n
  | .str s => strDump s
  | .arr xs => '[' :: dumpsElems xs ++ [']']
  | .obj fs => lbrace :: dumpsFields fs ++ [rbrace]

/-- Array elements joined by `", "`. -/
def dumpsElems : List JVal → List Char
  | [] => []
  | [x] => x.dumps
  | x :: y :: rest => x.dumps ++ ',' :: ' ' :: dumpsElems (y :: rest)

/-- Object members `"k": v` joined by `", "`. -/
def dumpsFields : List (String × JVal) → List Char
  | [] => []
  | [(k, v)] => strDump k ++ ':' :: ' ' :: v.dumps
  | (k, v) :: g :: rest => strDump k ++ ':' :: ' ' :: v.dumps ++ ',' :: ' ' :: dumpsFields (g :: rest)
end

/-! ## `json.loads`

Recursive-descent parser mirroring Python's `json.decoder` scanner
(strict mode): whitespace at the documented points, `\uXXXX` escapes with
surrogate pairing, objects built by `dict(pairs)` insertion. -/

def isWs (c : Char) : Bool := c = ' ' || c = '\t' || c = '\n' || c = '\r'

def skipWs : List Char → List Char
  | [] => []
  | c :: rest => if isWs c then skipWs rest else c :: rest

def hexVal (c : Char) : Option Nat :=
  if '0' ≤ c ∧ c ≤ '9' then some (c.toNat - 48)
  else if 'a' ≤ c ∧ c ≤ 'f' then some (c.toNat - 87)
  else if 'A' ≤ c ∧ c ≤ 'F' then some (c.toNat - 55)
  else none

/-- Four hex digits as in `\uXXXX`. -/
def hexVal4 (a b c d : Char) : Option Nat :=
  match hexVal a, hexVal b, hexVal c, hexVal d with
  | some x1, some x2, some x3, some x4 =>
    some (((x1 * 16 + x2) * 16 + x3) * 16 + x4)
  | _, _, _, _ => none

/-- The low surrogate completing a pair: combine or fail. -/
def parseEscPair (n m : Nat) (rest3 : List Char) : Except Unit (Char × List Char) :=
  if 56320 ≤ m ∧ m ≤ 57343 then
    .ok (Char.ofNat (65536 + (n - 55296) * 1024 + (m - 56320)), rest3)
  else .error ()

/-- A `\uXXXX` escape with value `n`: a high surrogate must be followed by
a low-surrogate escape (Python pairs them; a lone surrogate cannot be a
Lean `Char` and is rejected, see the module comment). -/
def parseEscU (n : Nat) (rest2 : List Char) : Except Unit (Char × List Char) :=
  if 55296 ≤ n ∧ n ≤ 56319 then
    match rest2 with
    | '\\' :: 'u' :: g1 :: g2 :: g3 :: g4 :: rest3 =>
      match hexVal4 g1 g2 g3 g4 with
      | none => .error ()
      | some m => parseEscPair n m rest3
    | _ => .error ()
  else if 56320 ≤ n ∧ n ≤ 57343 then .error ()
  else .ok (Char.ofNat n, rest2)

/-- One backslash escape (the input starts after the backslash): the named
escapes and `\uXXXX`. -/
def parseEsc : List Char → Except Unit (Char × List Char)
  | [] => .error ()
  | '"' :: rest => .ok ('"', rest)
  | '\\' :: rest => .ok ('\\', rest)
  | '/' :: rest => .ok ('/', rest)
  | 'b' :: rest => .ok (Char.ofNat 8, rest)
  | 'f' :: rest => .ok (Char.ofNat 12, rest)
  | 'n' :: rest => .ok ('\n', rest)
  | 'r' :: rest => .ok ('\r', rest)
  | 't' :: rest => .ok ('\t', rest)
  | 'u' :: h1 :: h2 :: h3 :: h4 :: rest2 =>
    match hexVal4 h1 h2 h3 h4 with
    | none => .error ()
    | some n => parseEscU n rest2
  | 'u' :: _ => .error ()
  | _ :: _ => .error ()

/-- `py_scanstring` after the opening quote: accumulate until the closing
quote, decoding backslash escapes; a raw control character is an error
(strict mode).  Fueled: every step consumes at least one character, so
fuel equal to the input length never runs out. -/
def parseStrBodyF : Nat → List Char → List Char → Except Unit (String × List Char)
  | _, _, [] => .error ()
  | 0, _, _ :: _ => .error ()
  | fuel + 1, acc, c :: rest =>
    if c = '"' then .ok (String.mk acc, rest)
    else if c = '\\' then do
      let (d, rest2) ← parseEsc rest
      parseStrBodyF fuel (acc ++ [d]) rest2
    else if c.toNat < 32 then .error ()
    else parseStrBodyF fuel (acc ++ [c]) rest

def parseStrBody (acc cs : List Char) : Except Unit (String × List Char) :=
  parseStrBodyF cs.length acc cs

def isDigit (c : Char) : Bool := '0' ≤ c && c ≤ '9'

/-- Longest digit run at the head of the input. -/
def takeDigits : List Char → List Char × List Char
  | [] => ([], [])
  | c :: rest =>
    if isDigit c then
      let (ds, r) := takeDigits rest
      (c :: ds, r)
    else ([], c :: rest)

def digitsToNat (acc : Nat) (ds : List Char) : Nat :=
  ds.foldl (fun a c => a * 10 + (c.toNat - 48)) acc

/-- After the integer part of Python's `NUMBER_RE` (`-?(0|[1-9]\d*)`): a
`.`/`e`/`E` continuation is a float (out of the modelled universe,
rejected); otherwise the integer value. -/
def parseNumTail (neg : Bool) (n : Nat) (r : List Char) : Except Unit (JVal × List Char) :=
  match r with
  | c :: _ =>
    if c = '.' ∨ c = 'e' ∨ c = 'E' then .error ()
    else .ok (.num (if neg then -(n : Int) else (n : Int)), r)
  | [] => .ok (.num (if neg then -(n : Int) else (n : Int)), r)

/-- The digit run after the optional sign. -/
def parseNumCore (neg : Bool) (cs1 : List Char) : Except Unit (JVal × List Char) :=
  match cs1 with
  | [] => .error ()
  | c :: rest =>
    if c = '0' then parseNumTail neg 0 rest
    else if isDigit c then
      let (ds, r) := takeDigits rest
      parseNumTail neg (digitsToNat (c.toNat - 48) ds) r
    else .error ()

def parseNum (cs : List Char) : Except Unit (JVal × List Char) :=
  match cs with
  | [] => .error ()
  | c0 :: cs0 =>
    if c0 = '-' then parseNumCore true cs0
    else parseNumCore false (c0 :: cs0)

/-- `dict` insertion used when `json.loads` materialises an object from its
member list: an existing key keeps its position, a new key is appended. -/
def objInsert : List (String × JVal) → String → JVal → List (String × JVal)
  | [], k, v => [(k, v)]
  | (k', v') :: rest, k, v =>
    if k' = k then (k', v) :: rest else (k', v') :: objInsert rest k v

mutual

/-- `scan_once`: parse one JSON value starting at the first character
(callers skip whitespace). -/
def parseVal : Nat → List Char → Except Unit (JVal × List Char)
  | 0, _ => .error ()
  | _ + 1, [] => .error ()
  | fuel + 1, c :: cs =>
    if c = lbrace then
      match skipWs cs with
      | c2 :: cs2 =>
        if c2 = rbrace then .ok (.obj [], cs2)
        else parseMembers fuel [] (c2 :: cs2)
      | [] => .error ()
    else if c = '[' then
      match skipWs cs with
      | c2 :: cs2 =>
        if c2 = ']' then .ok (.arr [], cs2)
        else parseElems fuel [] (c2 :: cs2)
      | [] => parseElems fuel [] []
    else if c = '"' then do
      let (s, r) ← parseStrBody [] cs
      .ok (.str s, r)
    else if c = 'n' then
      match cs with
      | c1 :: c2 :: c3 :: r =>
        if c1 = 'u' ∧ c2 = 'l' ∧ c3 = 'l' then .ok (.null, r) else .error ()
      | _ => .error ()
    else if c = 't' then
      match cs with
      | c1 :: c2 :: c3 :: r =>
        if c1 = 'r' ∧ c2 = 'u' ∧ c3 = 'e' then .ok (.bool true, r) else .error ()
      | _ => .error ()
    else if c = 'f' then
      match cs with
      | c1 :: c2 :: c3 :: c4 :: r =>
        if c1 = 'a' ∧ c2 = 'l' ∧ c3 = 's' ∧ c4 = 'e' then .ok (.bool false, r)
        else .error ()
      | _ => .error ()
    else parseNum (c :: cs)

/-- `JSONArray` element loop, positioned at an element's first character. -/
def parseElems : Nat → List JVal → List Char → Except Unit (JVal × List Char)
  | 0, _, _ => .error ()
  | fuel + 1, acc, cs => do
    let (v, r) ← parseVal fuel cs
    match skipWs r with
    | c2 :: r2 =>
      if c2 = ',' then parseElems fuel (acc ++ [v]) (skipWs r2)
      else if c2 = ']' then .ok (.arr (acc ++ [v]), r2)
      else .error ()
    | [] => .error ()

/-- `JSONObject` member loop, positioned at a key's opening quote. -/
def parseMembers : Nat → List (String × JVal) → List Char → Except Unit (JVal × List Char)
  | 0, _, _ => .error ()
  | _ + 1, _, [] => .error ()
  | fuel + 1, acc, c0 :: cs1 =>
      if c0 = '"' then do
        let (k, r1) ← parseStrBody [] cs1
        match skipWs r1 with
        | c2 :: r2 =>
          if c2 = ':' then do
            let (v, r3) ← parseVal fuel (skipWs r2)
            let acc2 := objInsert acc k v
            match skipWs r3 with
            | c4 :: r4 =>
              if c4 = ',' then parseMembers fuel acc2 (skipWs r4)
              else if c4 = rbrace then .ok (.obj acc2, r4)
              else .error ()
            | [] => .error ()
          else .error ()
        | [] => .error ()
      else .error ()

end

/-- `json.loads`: whitespace, one value, whitespace, end of input. -/
def jsonLoads (cs : List Char) : Except Unit JVal := do
  let (v, r) ← parseVal (cs.length + 1) (skipWs cs)
  if (skipWs r).isEmpty then .ok v else .error ()

/-! ## UTF-8 (`str.encode()` / `bytes.decode()`, strict) -/

def utf8EncodeChar (c : Char) : List Nat :=
  let n := c.toNat
  if n < 128 then [n]
  else if n < 2048 then [192 + n / 64, 128 + n % 64]
  else if n < 65536 then [224 + n / 4096, 128 + n / 64 % 64, 128 + n % 64]
  else [240 + n / 262144, 128 + n / 4096 % 64, 128 + n / 64 % 64, 128 + n % 64]

def utf8Encode (cs : List Char) : List Nat := (cs.map utf8EncodeChar).flatten

/-- Continuation byte `10xxxxxx`. -/
def utf8Cont (b : Nat) : Bool := 128 ≤ b && b < 192

/-- One multi-byte UTF-8 sequence (lead byte `b ≥ 0x80`): code point and
remaining bytes, rejecting bad continuation bytes, overlong forms,
surrogates and out-of-range code points, as Python's strict decoder does. -/
def utf8Step (b : Nat) (rest : List Nat) : Except Unit (Nat × List Nat) :=
  if 194 ≤ b ∧ b ≤ 223 then
    match rest with
    | b2 :: rest2 =>
      if utf8Cont b2 then .ok ((b - 192) * 64 + (b2 - 128), rest2) else .error ()
    | [] => .error ()
  else if 224 ≤ b ∧ b ≤ 239 then
    match rest with
    | b2 :: b3 :: rest2 =>
      let n := (b - 224) * 4096 + (b2 - 128) * 64 + (b3 - 128)
      if utf8Cont b2 ∧ utf8Cont b3 ∧ 2048 ≤ n ∧ ¬(55296 ≤ n ∧ n ≤ 57343) then
        .ok (n, rest2)
      else .error ()
    | _ => .error ()
  else if 240 ≤ b ∧ b ≤ 244 then
    match rest with
    | b2 :: b3 :: b4 :: rest2 =>
      let n := (b - 240) * 262144 + (b2 - 128) * 4096 + (b3 - 128) * 64 + (b4 - 128)
      if utf8Cont b2 ∧ utf8Cont b3 ∧ utf8Cont b4 ∧ 65536 ≤ n ∧ n ≤ 1114111 then
        .ok (n, rest2)
      else .error ()
    | _ => .error ()
  else .error ()

/-- Strict UTF-8 decoding (`bytes.decode()`), fueled: every step consumes
at least one byte, so fuel equal to the input length never runs out. -/
def utf8DecodeF : Nat → List Nat → Except Unit (List Char)
  | _, [] => .ok []
  | 0, _ :: _ => .error ()
  | fuel + 1, b :: rest =>
    if b < 128 then do
      let cs ← utf8DecodeF fuel rest
      .ok (Char.ofNat b :: cs)
    else do
      let (n, rest2) ← utf8Step b rest
      let cs ← utf8DecodeF fuel rest2
      .ok (Char.ofNat n :: cs)

def utf8Decode (bs : List Nat) : Except Unit (List Char) := utf8DecodeF bs.length bs

/-! ## base64 (`base64.b64encode` / `base64.b64decode`) -/

def b64chr (d : Nat) : Char :=
  if d < 26 then Char.ofNat (65 + d)
  else if d < 52 then Char.ofNat (97 + (d - 26))
  else if d < 62 then Char.ofNat (48 + (d - 52))
  else if d = 62 then '+'
  else '/'

def b64val (c : Char) : Option Nat :=
  if 'A' ≤ c ∧ c ≤ 'Z' then some (c.toNat - 65)
  else if 'a' ≤ c ∧ c ≤ 'z' then some (c.toNat - 97 + 26)
  else if '0' ≤ c ∧ c ≤ '9' then some (c.toNat - 48 + 52)
  else if c = '+' then some 62
  else if c = '/' then some 63
  else none

/-- `base64.b64encode`: three bytes to four characters, `=`-padded tail. -/
def b64encode : List Nat → List Char
  | b1 :: b2 :: b3 :: rest =>
    b64chr (b1 / 4) :: b64chr ((b1 % 4) * 16 + b2 / 16) ::
    b64chr ((b2 % 16) * 4 + b3 / 64) :: b64chr (b3 % 64) :: b64encode rest
  | [b1, b2] => [b64chr (b1 / 4), b64chr ((b1 % 4) * 16 + b2 / 16), b64chr ((b2 % 16) * 4), '=']
  | [b1] => [b64chr (b1 / 4), b64chr ((b1 % 4) * 16), '=', '=']
  | [] => []

/-- CPython `binascii.a2b_base64` in non-strict mode (what
`base64.b64decode` calls): characters outside the alphabet are skipped;
`=` closing a quad of two or three data characters ends the input
(any remainder is ignored); leftover data characters at the end are an
error (`Incorrect padding`).  State: quad position, pending bits,
consecutive pad count, output. -/
def b64decodeLoop : List Char → Nat → Nat → Nat → List Nat → Except Unit (List Nat)
  | [], qp, _, _, acc => if qp = 0 then .ok acc else .error ()
  | c :: rest, qp, left, pads, acc =>
    if c = '=' then
      if 2 ≤ qp ∧ 4 ≤ qp + pads + 1 then .ok acc
      else b64decodeLoop rest qp left (pads + 1) acc
    else
      match b64val c with
      | none => b64decodeLoop rest qp left pads acc
      | some d =>
        match qp with
        | 0 => b64decodeLoop rest 1 d 0 acc
        | 1 => b64decodeLoop rest 2 (d % 16) 0 (acc ++ [left * 4 + d / 16])
        | 2 => b64decodeLoop rest 3 (d % 4) 0 (acc ++ [left * 16 + d / 4])
        | _ => b64decodeLoop rest 0 0 0 (acc ++ [left * 64 + d])

def b64decode (cs : List Char) : Except Unit (List Nat) := b64decodeLoop cs 0 0 0 []

/-! ## WAL value encoding (`kvstore/store.py`) -/

/-- `_encode_value`: base64 of the UTF-8 JSON serialisation (the
serialisation is pure ASCII under `ensure_ascii`). -/
def encodeValue (v : JVal) : List Char := b64encode (utf8Encode v.dumps)

/-- `_decode_value`: `json.loads(base64.b64decode(s.encode()).decode())`.
Any of the three stages can fail; the failure (a `ValueError` subclass in
each case) propagates to the caller. -/
def decodeValue (cs : List Char) : Except Unit JVal := do
  let bs ← b64decode cs
  let s ← utf8Decode bs
  jsonLoads s

/-! ## Round-trip: base64 -/

theorem b64val_b64chr : ∀ d < 64, b64val (b64chr d) = some d ∧ b64chr d ≠ '=' := by decide

theorem b64decodeLoop_enc :
    ∀ (bs acc : List Nat), (∀ b ∈ bs, b < 256) →
      b64decodeLoop (b64encode bs) 0 0 0 acc = .ok (acc ++ bs)
  | [], acc, _ => by simp [b64encode, b64decodeLoop]
  | [b1], acc, h => by
    have hb1 : b1 < 256 := h b1 (by simp)
    obtain ⟨hv1, hn1⟩ := b64val_b64chr (b1 / 4) (by omega)
    obtain ⟨hv2, hn2⟩ := b64val_b64chr (b1 % 4 * 16) (by omega)
    simp only [b64encode, b64decodeLoop, hv1, hn1, hv2, hn2, if_neg, if_pos]
    simp
    omega
  | [b1, b2], acc, h => by
    have hb1 : b1 < 256 := h b1 (by simp)
    have hb2 : b2 < 256 := h b2 (by simp)
    obtain ⟨hv1, hn1⟩ := b64val_b64chr (b1 / 4) (by omega)
    obtain ⟨hv2, hn2⟩ := b64val_b64chr (b1 % 4 * 16 + b2 / 16) (by omega)
    obtain ⟨hv3, hn3⟩ := b64val_b64chr (b2 % 16 * 4) (by omega)
    simp only [b64encode, b64decodeLoop, hv1, hn1, hv2, hn2, hv3, hn3, if_neg, if_pos]
    simp
    constructor <;> omega
  | b1 :: b2 :: b3 :: rest, acc, h => by
    have hb1 : b1 < 256 := h b1 (by simp)
    have hb2 : b2 < 256 := h b2 (by simp)
    have hb3 : b3 < 256 := h b3 (by simp)
    obtain ⟨hv1, hn1⟩ := b64val_b64chr (b1 / 4) (by omega)
    obtain ⟨hv2, hn2⟩ := b64val_b64chr (b1 % 4 * 16 + b2 / 16) (by omega)
    obtain ⟨hv3, hn3⟩ := b64val_b64chr (b2 % 16 * 4 + b3 / 64) (by omega)
    obtain ⟨hv4, hn4⟩ := b64val_b64chr (b3 % 64) (by omega)
    have ih := b64decodeLoop_enc rest (acc ++ [b1, b2, b3])
      (fun b hb => h b (by simp [hb]))
    simp only [b64encode, b64decodeLoop, hv1, hn1, hv2, hn2, hv3, hn3, hv4, hn4, if_neg]
    have e1 : b1 / 4 * 4 + (b1 % 4 * 16 + b2 / 16) / 16 = b1 := by omega
    have e2 : (b1 % 4 * 16 + b2 / 16) % 16 * 16 + (b2 % 16 * 4 + b3 / 64) / 4 = b2 := by omega
    have e3 : (b2 % 16 * 4 + b3 / 64) % 4 * 64 + b3 % 64 = b3 := by omega
    simp only [e1, e2, e3]
    simpa using ih

/-- base64 round-trip on byte lists. -/
theorem b64decode_encode (bs : List Nat) (h : ∀ b ∈ bs, b < 256) :
    b64decode (b64encode bs) = .ok bs := by
  simpa using b64decodeLoop_enc bs [] h

/-! ## Round-trip: UTF-8 on ASCII streams -/

theorem utf8EncodeChar_len (c : Char) : 1 ≤ (utf8EncodeChar c).length := by
  simp only [utf8EncodeChar]
  split_ifs <;> simp

theorem utf8Encode_len : ∀ cs : List Char, cs.length ≤ (utf8Encode cs).length
  | [] => by simp [utf8Encode]
  | c :: cs => by
    have h1 := utf8Encode_len cs
    have h2 := utf8EncodeChar_len c
    simp only [utf8Encode, List.map_cons, List.flatten_cons, List.length_append,
      List.length_cons] at *
    omega

theorem utf8DecodeF_encode_ascii :
    ∀ (cs : List Char) (fuel : Nat), (∀ c ∈ cs, c.toNat < 128) → cs.length ≤ fuel →
      utf8DecodeF fuel (utf8Encode cs) = .ok cs
  | [], fuel, _, _ => by
    rw [show utf8Encode [] = [] from rfl]
    cases fuel <;> simp [utf8DecodeF]
  | c :: cs, fuel, h, hf => by
    have hc : c.toNat < 128 := h c (by simp)
    obtain ⟨f, rfl⟩ : ∃ f, fuel = f + 1 := ⟨fuel - 1, by simp at hf; omega⟩
    have ih := utf8DecodeF_encode_ascii cs f (fun x hx => h x (by simp [hx]))
      (by simp at hf; omega)
    have henc : utf8Encode (c :: cs) = c.toNat :: utf8Encode cs := by
      simp [utf8Encode, utf8EncodeChar, hc]
    rw [henc]
    simp [utf8DecodeF, hc, ih, Char.ofNat_toNat]
    rfl

/-- UTF-8 round-trip on ASCII streams (all the encoder's output, under
`ensure_ascii`, is ASCII). -/
theorem utf8Decode_encode_ascii (cs : List Char) (h : ∀ c ∈ cs, c.toNat < 128) :
    utf8Decode (utf8Encode cs) = .ok cs :=
  utf8DecodeF_encode_ascii cs _ h (utf8Encode_len cs)

/-! ## Round-trip: JSON.  Helper lemmas -/

theorem char_eq_iff_toNat (c d : Char) : c = d ↔ c.toNat = d.toNat :=
  ⟨fun h => by rw [h], fun h => Char.ext (UInt32.ext h)⟩

theorem char_valid_toNat (c : Char) :
    c.toNat < 55296 ∨ (57343 < c.toNat ∧ c.toNat < 1114112) := by
  have h := c.valid
  simp [UInt32.isValidChar, Nat.isValidChar] at h
  rcases h with h | h
  · left; exact h
  · right; exact h

theorem toNat_ofNat_valid (m : Nat) (h : m.isValidChar) : (Char.ofNat m).toNat = m := by
  simp [Char.ofNat, h]
  rfl

theorem toNat_ofNat_small (m : Nat) (h : m < 55296) : (Char.ofNat m).toNat = m :=
  toNat_ofNat_valid m (Or.inl h)

theorem hexVal_hexDigit : ∀ d < 16, hexVal (hexDigit d) = some d := by decide

theorem skipWs_not_ws (c : Char) (r : List Char) (h : isWs c = false) :
    skipWs (c :: r) = c :: r := by simp [skipWs, h]

theorem skipWs_space (r : List Char) : skipWs (' ' :: r) = skipWs r := by
  rw [skipWs]
  norm_num [isWs]

/-! Digit printing and parsing -/

theorem natDigits_digits (n : Nat) :
    ∀ c ∈ natDigits n, 48 ≤ c.toNat ∧ c.toNat ≤ 57 := by
  rw [natDigits]
  split
  · intro c hc
    simp only [List.mem_singleton] at hc
    subst hc
    rw [toNat_ofNat_small _ (by omega)]
    omega
  · intro c hc
    rcases List.mem_append.mp hc with h | h
    · exact natDigits_digits (n / 10) c h
    · simp only [List.mem_singleton] at h
      subst h
      rw [toNat_ofNat_small _ (by omega)]
      omega
termination_by n
decreasing_by exact Nat.div_lt_self (by omega) (by omega)

theorem natDigits_ne_nil (n : Nat) : natDigits n ≠ [] := by
  rw [natDigits]
  split
  · simp
  · simp

theorem natDigits_head_pos (n : Nat) (hn : n ≠ 0) :
    ∀ c ∈ (natDigits n).take 1, c ≠ '0' := by
  rw [natDigits]
  split
  · intro c hc
    simp only [List.take, List.mem_singleton] at hc
    subst hc
    intro hEq
    have h1 := congrArg Char.toNat hEq
    rw [toNat_ofNat_small _ (by omega)] at h1
    have h2 : ('0' : Char).toNat = 48 := rfl
    omega
  · intro c hc
    have hne := natDigits_ne_nil (n / 10)
    obtain ⟨d, ds, hd⟩ := List.exists_cons_of_ne_nil hne
    rw [hd] at hc
    simp only [List.cons_append, List.take_succ_cons, List.take_zero,
      List.mem_singleton] at hc
    subst hc
    have hrec := natDigits_head_pos (n / 10) (by omega)
    rw [hd] at hrec
    exact hrec c (by simp)
termination_by n
decreasing_by exact Nat.div_lt_self (by omega) (by omega)

theorem digitsToNat_append (xs : List Char) (acc : Nat) (ys : List Char) :
    digitsToNat acc (xs ++ ys) = digitsToNat (digitsToNat acc xs) ys := by
  simp [digitsToNat, List.foldl_append]

theorem digitsToNat_natDigits : ∀ n acc : Nat,
    digitsToNat acc (natDigits n) = acc * 10 ^ (natDigits n).length + n := by
  intro n
  induction n using Nat.strong_induction_on with
  | _ n ih =>
    intro acc
    rw [natDigits]
    split
    · simp only [digitsToNat, List.foldl_cons, List.foldl_nil,
        List.length_singleton, pow_one]
      rw [toNat_ofNat_small _ (by omega)]
      omega
    · rw [digitsToNat_append,
        ih (n / 10) (Nat.div_lt_self (by omega) (by omega)) acc]
      simp only [digitsToNat, List.foldl_cons, List.foldl_nil,
        List.length_append, List.length_singleton]
      rw [toNat_ofNat_small _ (by omega), pow_succ]
      have hn : n / 10 * 10 + n % 10 = n := by omega
      have hmul : acc * (10 ^ (natDigits (n / 10)).length * 10)
          = acc * 10 ^ (natDigits (n / 10)).length * 10 := by ring
      omega

theorem takeDigits_append (ds rest : List Char) (hds : ∀ c ∈ ds, isDigit c = true)
    (hrest : ∀ c ∈ rest.take 1, isDigit c = false) :
    takeDigits (ds ++ rest) = (ds, rest) := by
  induction ds with
  | nil =>
    simp only [List.nil_append]
    cases rest with
    | nil => rfl
    | cons c r =>
      have := hrest c (by simp)
      simp [takeDigits, this]
  | cons c cs ih =>
    have hc := hds c (by simp)
    have ih2 := ih (fun x hx => hds x (by simp [hx]))
    simp only [List.cons_append, takeDigits, hc, if_pos, List.append_eq, ih2]

theorem isDigit_toNat (c : Char) : isDigit c = true ↔ 48 ≤ c.toNat ∧ c.toNat ≤ 57 := by
  simp only [isDigit, Bool.and_eq_true, decide_eq_true_eq, Char.le_def]
  exact Iff.rfl

/-- What follows a serialised integer in any `dumps` context: not a digit
and not a fraction/exponent continuation. -/
def numTailOk : List Char → Bool
  | [] => true
  | c :: _ => !isDigit c && !(c = '.') && !(c = 'e') && !(c = 'E')

theorem parseNumCore_natDigits (m : Nat) (neg : Bool) (rest : List Char)
    (h : numTailOk rest = true) :
    parseNumCore neg (natDigits m ++ rest)
      = .ok (.num (if neg then -(m : Int) else (m : Int)), rest) := by
  unfold parseNumCore
  obtain ⟨d, ds, hd⟩ := List.exists_cons_of_ne_nil (natDigits_ne_nil m)
  have hdigits := natDigits_digits m
  have hdd : 48 ≤ d.toNat ∧ d.toNat ≤ 57 := hdigits d (by rw [hd]; simp)
  have htake : takeDigits (ds ++ rest) = (ds, rest) := by
    apply takeDigits_append
    · intro x hx
      exact (isDigit_toNat x).mpr (hdigits x (by rw [hd]; simp [hx]))
    · intro x hx
      cases rest with
      | nil => simp at hx
      | cons c r =>
        simp only [List.take_succ_cons, List.take_zero, List.mem_singleton] at hx
        subst hx
        simp only [numTailOk, Bool.and_eq_true, Bool.not_eq_true',
          decide_eq_false_iff_not] at h
        exact h.1.1.1
  have hval : digitsToNat (d.toNat - 48) ds = m := by
    have h0 := digitsToNat_natDigits m 0
    rw [hd] at h0
    simpa [digitsToNat] using h0
  have htail : ∀ b n, parseNumTail b n rest = .ok (.num (if b then -(n : Int) else (n : Int)), rest) := by
    intro b n
    cases rest with
    | nil => rfl
    | cons c r =>
      simp only [numTailOk, Bool.and_eq_true, Bool.not_eq_true',
        decide_eq_false_iff_not] at h
      simp only [parseNumTail]
      rw [if_neg]
      push_neg
      exact ⟨h.1.1.2, h.1.2, h.2⟩
  rw [hd]
  simp only [List.cons_append]
  by_cases hm : m = 0
  · subst hm
    have h00 : natDigits 0 = ['0'] := by rw [natDigits]; rfl
    have h12 := h00.symm.trans hd
    injection h12 with h1 h2
    subst h1
    subst h2
    simp only [List.cons_append, List.nil_append, if_pos rfl]
    exact htail neg 0
  · have hd0 : d ≠ '0' := natDigits_head_pos m hm d (by rw [hd]; simp)
    simp only [List.cons_append, if_neg hd0, (isDigit_toNat d).mpr hdd, if_pos]
    rw [htake]
    simp only [hval]
    exact htail neg m

theorem parseNum_intChars (n : Int) (rest : List Char) (h : numTailOk rest = true) :
    parseNum (intChars n ++ rest) = .ok (.num n, rest) := by
  by_cases hn : n < 0
  · have hi : intChars n = '-' :: natDigits (-n).toNat := by simp [intChars, hn]
    rw [hi]
    have hstep := parseNumCore_natDigits (-n).toNat true rest h
    have hval : -(((-n).toNat : Nat) : Int) = n := by omega
    rw [hval] at hstep
    simpa [parseNum] using hstep
  · have hi : intChars n = natDigits n.toNat := by simp [intChars, hn]
    rw [hi]
    have hstep := parseNumCore_natDigits n.toNat false rest h
    have hval : ((n.toNat : Nat) : Int) = n := by omega
    rw [hval] at hstep
    obtain ⟨d, ds, hd⟩ := List.exists_cons_of_ne_nil (natDigits_ne_nil n.toNat)
    have hdd := natDigits_digits n.toNat d (by rw [hd]; simp)
    have hne : d ≠ '-' := by
      intro hEq
      subst hEq
      have : ('-').toNat = 45 := rfl
      omega
    rw [hd] at hstep ⊢
    simp only [List.cons_append] at hstep ⊢
    rw [parseNum, if_neg hne]
    exact hstep

/-! String escaping round-trip -/

/-- The escaped body of a dumped string. -/
def escList (cs : List Char) : List Char := (cs.map escapeChar).flatten

theorem escList_len : ∀ cs : List Char, cs.length ≤ (escList cs).length := by
  intro cs
  induction cs with
  | nil => simp [escList]
  | cons c cs ih =>
    have h1 : 1 ≤ (escapeChar c).length := by
      simp only [escapeChar]
      split_ifs <;> simp
    simp only [escList, List.map_cons, List.flatten_cons, List.length_append,
      List.length_cons] at *
    omega

theorem hexVal4_hex4 (k : Nat) (hk : k < 65536) :
    hexVal4 (hexDigit (k / 4096 % 16)) (hexDigit (k / 256 % 16))
      (hexDigit (k / 16 % 16)) (hexDigit (k % 16)) = some k := by
  have e1 := hexVal_hexDigit (k / 4096 % 16) (by omega)
  have e2 := hexVal_hexDigit (k / 256 % 16) (by omega)
  have e3 := hexVal_hexDigit (k / 16 % 16) (by omega)
  have e4 := hexVal_hexDigit (k % 16) (by omega)
  unfold hexVal4
  rw [e1, e2, e3, e4]
  exact congrArg some (by omega)

theorem parseEsc_u_eq (h1 h2 h3 h4 : Char) (n : Nat) (rest2 : List Char)
    (hV : hexVal4 h1 h2 h3 h4 = some n) :
    parseEsc ('u' :: h1 :: h2 :: h3 :: h4 :: rest2) = parseEscU n rest2 := by
  rw [parseEsc, hV]

theorem parseEscU_bmp (n : Nat) (rest2 : List Char)
    (h : ¬(55296 ≤ n ∧ n ≤ 56319)) (h2 : ¬(56320 ≤ n ∧ n ≤ 57343)) :
    parseEscU n rest2 = .ok (Char.ofNat n, rest2) := by
  unfold parseEscU
  rw [if_neg h, if_neg h2]

theorem parseEscU_pair (n m : Nat) (g1 g2 g3 g4 : Char) (rest3 : List Char)
    (hs : 55296 ≤ n ∧ n ≤ 56319) (hV : hexVal4 g1 g2 g3 g4 = some m) :
    parseEscU n ('\\' :: 'u' :: g1 :: g2 :: g3 :: g4 :: rest3) = parseEscPair n m rest3 := by
  unfold parseEscU
  rw [if_pos hs]
  show (match hexVal4 g1 g2 g3 g4 with
        | none => Except.error ()
        | some m => parseEscPair n m rest3) = parseEscPair n m rest3
  rw [hV]

theorem escapeChar_cases (c : Char) :
    (escapeChar c = [c] ∧ c ≠ '"' ∧ c ≠ '\\' ∧ 32 ≤ c.toNat) ∨
    (∃ t, escapeChar c = '\\' :: t ∧ ∀ rest, parseEsc (t ++ rest) = .ok (c, rest)) := by
  by_cases h1 : c = '"'
  · subst h1; right; exact ⟨['"'], rfl, fun rest => rfl⟩
  by_cases h2 : c = '\\'
  · subst h2; right; exact ⟨['\\'], rfl, fun rest => rfl⟩
  by_cases h3 : c = '\n'
  · subst h3; right; exact ⟨['n'], rfl, fun rest => rfl⟩
  by_cases h4 : c = '\t'
  · subst h4; right; exact ⟨['t'], rfl, fun rest => rfl⟩
  by_cases h5 : c = '\r'
  · subst h5; right; exact ⟨['r'], rfl, fun rest => rfl⟩
  by_cases h6 : c.toNat = 8
  · right
    refine ⟨['b'], ?_, fun rest => ?_⟩
    · simp [escapeChar, h1, h2, h3, h4, h5, h6]
    · have : c = Char.ofNat 8 := by
        rw [char_eq_iff_toNat, h6, toNat_ofNat_small _ (by omega)]
      rw [this]
      rfl
  by_cases h7 : c.toNat = 12
  · right
    refine ⟨['f'], ?_, fun rest => ?_⟩
    · simp [escapeChar, h1, h2, h3, h4, h5, h6, h7]
    · have : c = Char.ofNat 12 := by
        rw [char_eq_iff_toNat, h7, toNat_ofNat_small _ (by omega)]
      rw [this]
      rfl
  by_cases h8 : c.toNat < 32 ∨ 127 ≤ c.toNat
  · right
    have hval := char_valid_toNat c
    by_cases h9 : c.toNat < 65536
    · -- single `\uXXXX`
      refine ⟨'u' :: hex4 c.toNat, ?_, fun rest => ?_⟩
      · simp only [escapeChar, h1, h2, h3, h4, h5, h6, h7, if_false]
        rw [if_pos (by simpa using h8), if_pos h9]
      · have hsh : ('u' :: hex4 c.toNat) ++ rest
            = 'u' :: hexDigit (c.toNat / 4096 % 16) :: hexDigit (c.toNat / 256 % 16)
              :: hexDigit (c.toNat / 16 % 16) :: hexDigit (c.toNat % 16) :: rest := by
          simp [hex4]
        rw [hsh, parseEsc_u_eq _ _ _ _ c.toNat rest (hexVal4_hex4 c.toNat h9)]
        rw [parseEscU_bmp _ _ (by omega) (by omega), Char.ofNat_toNat]
    · -- surrogate pair
      set hi := 55296 + (c.toNat - 65536) / 1024 with hhi
      set lo := 56320 + (c.toNat - 65536) % 1024 with hlo
      have hcu : c.toNat < 1114112 := by omega
      have hhi2 : hi < 65536 := by omega
      have hlo2 : lo < 65536 := by omega
      refine ⟨'u' :: hex4 hi ++ '\\' :: 'u' :: hex4 lo, ?_, fun rest => ?_⟩
      · simp only [escapeChar, h1, h2, h3, h4, h5, h6, h7, if_false]
        rw [if_pos (by simpa using h8), if_neg h9]
        simp
      · have hsh : ('u' :: hex4 hi ++ '\\' :: 'u' :: hex4 lo) ++ rest
            = 'u' :: hexDigit (hi / 4096 % 16) :: hexDigit (hi / 256 % 16)
              :: hexDigit (hi / 16 % 16) :: hexDigit (hi % 16)
              :: ('\\' :: 'u' :: hexDigit (lo / 4096 % 16) :: hexDigit (lo / 256 % 16)
                 :: hexDigit (lo / 16 % 16) :: hexDigit (lo % 16) :: rest) := by
          simp [hex4]
        rw [hsh, parseEsc_u_eq _ _ _ _ hi _ (hexVal4_hex4 hi hhi2)]
        rw [parseEscU_pair hi lo _ _ _ _ rest (by omega) (hexVal4_hex4 lo hlo2)]
        unfold parseEscPair
        rw [if_pos (by omega : 56320 ≤ lo ∧ lo ≤ 57343)]
        have hC : 65536 + (hi - 55296) * 1024 + (lo - 56320) = c.toNat := by omega
        rw [hC, Char.ofNat_toNat]
  · left
    refine ⟨?_, h1, h2, by omega⟩
    simp only [escapeChar, h1, h2, h3, h4, h5, h6, h7, if_false]
    rw [if_neg (by simpa using h8)]

theorem parseStrBodyF_escList :
    ∀ (cs : List Char) (fuel : Nat) (acc rest : List Char),
      cs.length + 1 ≤ fuel →
      parseStrBodyF fuel acc (escList cs ++ '"' :: rest)
        = .ok (String.mk (acc ++ cs), rest)
  | [], fuel, acc, rest, hf => by
    obtain ⟨f, rfl⟩ : ∃ f, fuel = f + 1 := ⟨fuel - 1, by omega⟩
    simp [escList, parseStrBodyF]
  | c :: cs, fuel, acc, rest, hf => by
    obtain ⟨f, rfl⟩ : ∃ f, fuel = f + 1 := ⟨fuel - 1, by simp at hf; omega⟩
    have hfn : cs.length + 1 ≤ f := by simp at hf; omega
    have hesc : escList (c :: cs) = escapeChar c ++ escList cs := by
      simp [escList]
    rw [hesc]
    rcases escapeChar_cases c with ⟨hlit, hq, hb, hge⟩ | ⟨t, ht, hparse⟩
    · rw [hlit]
      simp only [List.cons_append, List.append_eq, List.nil_append, parseStrBodyF,
        if_neg hq, if_neg hb, if_neg (by omega : ¬c.toNat < 32)]
      have ih := parseStrBodyF_escList cs f (acc ++ [c]) rest hfn
      simpa using ih
    · rw [ht]
      simp only [List.cons_append, List.append_eq, List.nil_append, parseStrBodyF,
        if_pos rfl, if_true, if_neg (by decide : ¬('\\' : Char) = '"')]
      rw [List.append_assoc, hparse (escList cs ++ '"' :: rest)]
      show parseStrBodyF f (acc ++ [c]) (escList cs ++ '"' :: rest) = _
      rw [parseStrBodyF_escList cs f (acc ++ [c]) rest hfn]
      simp

theorem parseStrBody_escList (cs acc rest : List Char) :
    parseStrBody acc (escList cs ++ '"' :: rest) = .ok (String.mk (acc ++ cs), rest) := by
  apply parseStrBodyF_escList
  have := escList_len cs
  simp only [List.length_append, List.length_cons, parseStrBody]
  omega

/-! Heads of serialised values: never whitespace, never a delimiter -/

theorem intChars_head : ∀ n : Int, ∃ c t, intChars n = c :: t ∧ (c = '-' ∨ 48 ≤ c.toNat ∧ c.toNat ≤ 57) := by
  intro n
  unfold intChars
  split
  · exact ⟨'-', _, rfl, Or.inl rfl⟩
  · obtain ⟨d, ds, hd⟩ := List.exists_cons_of_ne_nil (natDigits_ne_nil n.toNat)
    exact ⟨d, ds, hd, Or.inr (natDigits_digits n.toNat d (by rw [hd]; simp))⟩

theorem dumps_head (v : JVal) :
    ∃ c t, JVal.dumps v = c :: t ∧ isWs c = false ∧ c ≠ ']' ∧ c ≠ rbrace ∧ c ≠ ',' := by
  have hchar : ∀ c : Char, (c = '-' ∨ 48 ≤ c.toNat ∧ c.toNat ≤ 57) →
      isWs c = false ∧ c ≠ ']' ∧ c ≠ rbrace ∧ c ≠ ',' := by
    intro c hc
    rcases hc with rfl | hc
    · refine ⟨rfl, by decide, by decide, by decide⟩
    · refine ⟨?_, ?_, ?_, ?_⟩
      · simp only [isWs, Bool.or_eq_false_iff, decide_eq_false_iff_not]
        refine ⟨⟨⟨?_, ?_⟩, ?_⟩, ?_⟩ <;> intro hEq <;> subst hEq <;> revert hc <;> decide
      · intro hEq; subst hEq; revert hc; decide
      · intro hEq; subst hEq; revert hc; decide
      · intro hEq; subst hEq; revert hc; decide
  cases v with
  | null => exact ⟨'n', _, rfl, by decide, by decide, by decide, by decide⟩
  | bool b => cases b with
    | true => exact ⟨'t', _, rfl, by decide, by decide, by decide, by decide⟩
    | false => exact ⟨'f', _, rfl, by decide, by decide, by decide, by decide⟩
  | num n =>
    obtain ⟨c, t, hct, hc⟩ := intChars_head n
    have hd : JVal.dumps (.num n) = c :: t := hct
    exact ⟨c, t, hd, hchar c hc⟩
  | str s => exact ⟨'"', _, rfl, by decide, by decide, by decide, by decide⟩
  | arr xs =>
    exact ⟨'[', dumpsElems xs ++ [']'], by simp [JVal.dumps], by decide, by decide,
      by decide, by decide⟩
  | obj fs =>
    exact ⟨lbrace, dumpsFields fs ++ [rbrace], by simp [JVal.dumps], by decide, by decide,
      by decide, by decide⟩

theorem skipWs_dumps (v : JVal) (x : List Char) :
    skipWs (JVal.dumps v ++ x) = JVal.dumps v ++ x := by
  obtain ⟨c, t, hct, hws, _⟩ := dumps_head v
  rw [hct]
  exact skipWs_not_ws c (t ++ x) hws

/-! Fuel accounting for the parser -/

mutual

/-- Fuel needed by `parseVal` to parse this value's serialisation. -/
def JVal.fsize : JVal → Nat
  | .null => 1
  | .bool _ => 1
  | .num _ => 1
  | .str _ => 1
  | .arr xs => 1 + fsizeElems xs
  | .obj fs => 1 + fsizeFields fs

def fsizeElems : List JVal → Nat
  | [] => 0
  | x :: xs => 1 + x.fsize + fsizeElems xs

def fsizeFields : List (String × JVal) → Nat
  | [] => 0
  | f :: fs => 1 + f.2.fsize + fsizeFields fs

end

theorem fsize_pos (v : JVal) : 1 ≤ v.fsize := by
  cases v <;> simp [JVal.fsize]

/-! Object keys -/

theorem keysNodup_iff : ∀ l : List String, keysNodup l = true ↔ l.Nodup
  | [] => by simp [keysNodup]
  | k :: rest => by
    simp [keysNodup, keysNodup_iff rest, List.nodup_cons, List.elem_iff]

theorem objInsert_fresh :
    ∀ (acc : List (String × JVal)) (k : String) (v : JVal),
      (∀ p ∈ acc, p.1 ≠ k) → objInsert acc k v = acc ++ [(k, v)]
  | [], _, _, _ => rfl
  | (k', v') :: acc, k, v, h => by
    have hne : k' ≠ k := h (k', v') (by simp)
    simp only [objInsert, if_neg hne, List.cons_append]
    rw [objInsert_fresh acc k v (fun p hp => h p (by simp [hp]))]

theorem numTailOk_cons (c : Char) (x : List Char)
    (h1 : isDigit c = false) (h2 : c ≠ '.') (h3 : c ≠ 'e') (h4 : c ≠ 'E') :
    numTailOk (c :: x) = true := by
  simp [numTailOk, h1, h2, h3, h4]

theorem dumpsElems_head (x : JVal) (xs : List JVal) :
    ∃ c t, dumpsElems (x :: xs) = c :: t ∧ isWs c = false ∧ c ≠ ']' ∧ c ≠ rbrace ∧ c ≠ ',' := by
  obtain ⟨c, t, hct, h⟩ := dumps_head x
  cases xs with
  | nil => exact ⟨c, t, by rw [dumpsElems, hct], h⟩
  | cons y ys =>
    refine ⟨c, t ++ ',' :: ' ' :: dumpsElems (y :: ys), ?_, h⟩
    rw [dumpsElems, hct]
    simp

theorem parseVal_succ (fuel : Nat) (c : Char) (cs : List Char) :
    parseVal (fuel + 1) (c :: cs) =
      (if c = lbrace then
        match skipWs cs with
        | c2 :: cs2 =>
          if c2 = rbrace then .ok (.obj [], cs2)
          else parseMembers fuel [] (c2 :: cs2)
        | [] => .error ()
      else if c = '[' then
        match skipWs cs with
        | c2 :: cs2 =>
          if c2 = ']' then .ok (.arr [], cs2)
          else parseElems fuel [] (c2 :: cs2)
        | [] => parseElems fuel [] []
      else if c = '"' then do
        let (s, r) ← parseStrBody [] cs
        .ok (.str s, r)
      else if c = 'n' then
        match cs with
        | c1 :: c2 :: c3 :: r =>
          if c1 = 'u' ∧ c2 = 'l' ∧ c3 = 'l' then .ok (.null, r) else .error ()
        | _ => .error ()
      else if c = 't' then
        match cs with
        | c1 :: c2 :: c3 :: r =>
          if c1 = 'r' ∧ c2 = 'u' ∧ c3 = 'e' then .ok (.bool true, r) else .error ()
        | _ => .error ()
      else if c = 'f' then
        match cs with
        | c1 :: c2 :: c3 :: c4 :: r =>
          if c1 = 'a' ∧ c2 = 'l' ∧ c3 = 's' ∧ c4 = 'e' then .ok (.bool false, r)
          else .error ()
        | _ => .error ()
      else parseNum (c :: cs)) := rfl

theorem parseElems_succ (fuel : Nat) (acc : List JVal) (cs : List Char) :
    parseElems (fuel + 1) acc cs =
      (do
        let (v, r) ← parseVal fuel cs
        match skipWs r with
        | c2 :: r2 =>
          if c2 = ',' then parseElems fuel (acc ++ [v]) (skipWs r2)
          else if c2 = ']' then .ok (.arr (acc ++ [v]), r2)
          else .error ()
        | [] => .error ()) := rfl

theorem parseMembers_succ (fuel : Nat) (acc : List (String × JVal)) (c0 : Char)
    (cs1 : List Char) :
    parseMembers (fuel + 1) acc (c0 :: cs1) =
      (if c0 = '"' then do
          let (k, r1) ← parseStrBody [] cs1
          match skipWs r1 with
          | c2 :: r2 =>
            if c2 = ':' then do
              let (v, r3) ← parseVal fuel (skipWs r2)
              let acc2 := objInsert acc k v
              match skipWs r3 with
              | c4 :: r4 =>
                if c4 = ',' then parseMembers fuel acc2 (skipWs r4)
                else if c4 = rbrace then .ok (.obj acc2, r4)
                else .error ()
              | [] => .error ()
            else .error ()
          | [] => .error ()
        else .error ()) := rfl

theorem numHeadCond (c : Char) (hc : c = '-' ∨ 48 ≤ c.toNat ∧ c.toNat ≤ 57) :
    c ≠ lbrace ∧ c ≠ '[' ∧ c ≠ '"' ∧ c ≠ 'n' ∧ c ≠ 't' ∧ c ≠ 'f' := by
  rcases hc with rfl | hc
  · exact ⟨by decide, by decide, by decide, by decide, by decide, by decide⟩
  · refine ⟨?_, ?_, ?_, ?_, ?_, ?_⟩ <;> intro hEq <;> subst hEq <;> revert hc <;> decide

theorem dumpsFields_shape (k : String) (v : JVal) (gs : List (String × JVal)) :
    ∃ t, dumpsFields ((k, v) :: gs) = '"' :: t := by
  cases gs with
  | nil =>
    refine ⟨escList k.data ++ ['"'] ++ ':' :: ' ' :: v.dumps, ?_⟩
    rw [dumpsFields]
    simp [strDump, escList]
  | cons g gs =>
    refine ⟨escList k.data ++ ['"'] ++ ':' :: ' ' :: v.dumps
      ++ ',' :: ' ' :: dumpsFields (g :: gs), ?_⟩
    rw [dumpsFields]
    simp [strDump, escList]

mutual

/-- The scanner inverts the serialiser: parsing a dumped value consumes
exactly its serialisation.  `rest` may not continue a numeral (true at
every call site: a separator, closing bracket or end of input follows). -/
theorem parseVal_dumps : ∀ (v : JVal) (fuel : Nat) (rest : List Char),
    v.wf = true → v.fsize ≤ fuel → numTailOk rest = true →
    parseVal fuel (JVal.dumps v ++ rest) = .ok (v, rest)
  | .null, fuel, rest, _, hf, _ => by
    obtain ⟨f, rfl⟩ : ∃ f, fuel = f + 1 :=
      ⟨fuel - 1, by have := fsize_pos JVal.null; omega⟩
    show parseVal (f + 1) ('n' :: 'u' :: 'l' :: 'l' :: rest) = .ok (.null, rest)
    rw [parseVal]
    rw [if_neg (by decide : ¬('n' : Char) = lbrace),
      if_neg (by decide : ¬('n' : Char) = '['),
      if_neg (by decide : ¬('n' : Char) = '"'), if_pos rfl]
    simp
  | .bool true, fuel, rest, _, hf, _ => by
    obtain ⟨f, rfl⟩ : ∃ f, fuel = f + 1 :=
      ⟨fuel - 1, by have := fsize_pos (JVal.bool true); omega⟩
    show parseVal (f + 1) ('t' :: 'r' :: 'u' :: 'e' :: rest) = .ok (.bool true, rest)
    rw [parseVal]
    rw [if_neg (by decide : ¬('t' : Char) = lbrace),
      if_neg (by decide : ¬('t' : Char) = '['),
      if_neg (by decide : ¬('t' : Char) = '"'),
      if_neg (by decide : ¬('t' : Char) = 'n'), if_pos rfl]
    simp
  | .bool false, fuel, rest, _, hf, _ => by
    obtain ⟨f, rfl⟩ : ∃ f, fuel = f + 1 :=
      ⟨fuel - 1, by have := fsize_pos (JVal.bool false); omega⟩
    show parseVal (f + 1) ('f' :: 'a' :: 'l' :: 's' :: 'e' :: rest) = .ok (.bool false, rest)
    rw [parseVal]
    rw [if_neg (by decide : ¬('f' : Char) = lbrace),
      if_neg (by decide : ¬('f' : Char) = '['),
      if_neg (by decide : ¬('f' : Char) = '"'),
      if_neg (by decide : ¬('f' : Char) = 'n'),
      if_neg (by decide : ¬('f' : Char) = 't'), if_pos rfl]
    simp
  | .num n, fuel, rest, _, hf, hnum => by
    obtain ⟨f, rfl⟩ : ∃ f, fuel = f + 1 :=
      ⟨fuel - 1, by have := fsize_pos (JVal.num n); omega⟩
    have hd : JVal.dumps (.num n) = intChars n := by rw [JVal.dumps]
    obtain ⟨c, t, hct, hc⟩ := intChars_head n
    obtain ⟨g1, g2, g3, g4, g5, g6⟩ := numHeadCond c hc
    rw [hd, hct]
    rw [show (c :: t) ++ rest = c :: (t ++ rest) from rfl]
    rw [parseVal_succ]
    rw [if_neg g1, if_neg g2, if_neg g3, if_neg g4, if_neg g5, if_neg g6]
    rw [show c :: (t ++ rest) = (c :: t) ++ rest from rfl, ← hct]
    exact parseNum_intChars n rest hnum
  | .str s, fuel, rest, _, hf, _ => by
    obtain ⟨f, rfl⟩ : ∃ f, fuel = f + 1 :=
      ⟨fuel - 1, by have := fsize_pos (JVal.str s); omega⟩
    have hd : JVal.dumps (.str s) = '"' :: escList s.data ++ ['"'] := by
      rw [JVal.dumps]
      rfl
    have hsh : ('"' :: escList s.data ++ ['"']) ++ rest
        = '"' :: (escList s.data ++ '"' :: rest) := by simp
    rw [hd, hsh, parseVal_succ]
    rw [if_neg (by decide : ¬('"' : Char) = lbrace),
      if_neg (by decide : ¬('"' : Char) = '['), if_pos rfl]
    rw [parseStrBody_escList s.data [] rest]
    simp only [bind, Except.bind, List.nil_append]
  | .arr [], fuel, rest, _, hf, _ => by
    obtain ⟨f, rfl⟩ : ∃ f, fuel = f + 1 :=
      ⟨fuel - 1, by have := fsize_pos (JVal.arr []); omega⟩
    have hd : JVal.dumps (.arr []) ++ rest = '[' :: ']' :: rest := by
      rw [JVal.dumps]
      rfl
    rw [hd, parseVal_succ]
    rw [if_neg (by decide : ¬('[' : Char) = lbrace), if_pos rfl,
      skipWs_not_ws ']' rest (by decide)]
    simp
  | .arr (x :: xs), fuel, rest, hwf, hf, _ => by
    obtain ⟨f, rfl⟩ : ∃ f, fuel = f + 1 :=
      ⟨fuel - 1, by have := fsize_pos (JVal.arr (x :: xs)); omega⟩
    have hwf2 : wfList (x :: xs) = true := by rw [JVal.wf] at hwf; exact hwf
    have hf2 : fsizeElems (x :: xs) ≤ f := by rw [JVal.fsize] at hf; omega
    have hd : JVal.dumps (.arr (x :: xs)) ++ rest
        = '[' :: (dumpsElems (x :: xs) ++ ']' :: rest) := by
      rw [JVal.dumps]
      simp
    rw [hd, parseVal_succ]
    rw [if_neg (by decide : ¬('[' : Char) = lbrace), if_pos rfl]
    obtain ⟨c, t, hct, hws, hrb, _, _⟩ := dumpsElems_head x xs
    rw [hct, show (c :: t) ++ ']' :: rest = c :: (t ++ ']' :: rest) from rfl,
      skipWs_not_ws c _ hws]
    have hstep := parseElems_dumps (x :: xs) f [] rest (by simp) hwf2 hf2
    rw [hct, show (c :: t) ++ ']' :: rest = c :: (t ++ ']' :: rest) from rfl] at hstep
    simp only [List.nil_append] at hstep
    simp [hrb, hstep]
  | .obj [], fuel, rest, _, hf, _ => by
    obtain ⟨f, rfl⟩ : ∃ f, fuel = f + 1 :=
      ⟨fuel - 1, by have := fsize_pos (JVal.obj []); omega⟩
    have hd : JVal.dumps (.obj []) ++ rest = lbrace :: rbrace :: rest := by
      rw [JVal.dumps]
      rfl
    rw [hd, parseVal_succ]
    rw [if_pos rfl, skipWs_not_ws rbrace rest (by decide)]
    simp
  | .obj (g :: gs), fuel, rest, hwf, hf, _ => by
    obtain ⟨f, rfl⟩ : ∃ f, fuel = f + 1 :=
      ⟨fuel - 1, by have := fsize_pos (JVal.obj (g :: gs)); omega⟩
    obtain ⟨k, v⟩ := g
    have hwfs : keysNodup (((k, v) :: gs).map Prod.fst) = true ∧ wfFields ((k, v) :: gs) = true := by
      rw [JVal.wf] at hwf
      simpa using hwf
    have hnd : ((([] : List (String × JVal)) ++ (k, v) :: gs).map Prod.fst).Nodup := by
      simpa using (keysNodup_iff _).mp hwfs.1
    have hf2 : fsizeFields ((k, v) :: gs) ≤ f := by rw [JVal.fsize] at hf; omega
    have hd : JVal.dumps (.obj ((k, v) :: gs)) ++ rest
        = lbrace :: (dumpsFields ((k, v) :: gs) ++ rbrace :: rest) := by
      rw [JVal.dumps]
      simp
    rw [hd, parseVal_succ, if_pos rfl]
    obtain ⟨t, hshape⟩ := dumpsFields_shape k v gs
    rw [hshape, show ('"' :: t) ++ rbrace :: rest = '"' :: (t ++ rbrace :: rest) from rfl,
      skipWs_not_ws '"' _ (by decide)]
    have hstep := parseMembers_dumps ((k, v) :: gs) f [] rest (by simp) hwfs.2 hnd hf2
    rw [hshape, show ('"' :: t) ++ rbrace :: rest = '"' :: (t ++ rbrace :: rest) from rfl]
      at hstep
    simp only [List.nil_append] at hstep
    simp [hstep, (by decide : ¬('"' : Char) = rbrace)]

theorem parseElems_dumps : ∀ (xs : List JVal) (fuel : Nat) (acc : List JVal)
    (rest : List Char), xs ≠ [] → wfList xs = true → fsizeElems xs ≤ fuel →
    parseElems fuel acc (dumpsElems xs ++ ']' :: rest) = .ok (.arr (acc ++ xs), rest)
  | [], _, _, _, hne, _, _ => absurd rfl hne
  | [x], fuel, acc, rest, _, hwf, hf => by
    obtain ⟨f, rfl⟩ : ∃ f, fuel = f + 1 := ⟨fuel - 1, by rw [fsizeElems] at hf; omega⟩
    have hwx : x.wf = true := by
      rw [wfList] at hwf
      simpa using ((Bool.and_eq_true _ _).mp hwf).1
    have hfx : x.fsize ≤ f := by rw [fsizeElems, fsizeElems] at hf; omega
    have hde : dumpsElems [x] = x.dumps := by rw [dumpsElems]
    rw [hde, parseElems_succ]
    rw [parseVal_dumps x f (']' :: rest) hwx hfx (by rw [numTailOk]; decide)]
    simp only [bind, Except.bind]
    rw [skipWs_not_ws ']' rest (by decide)]
    simp
  | x :: y :: ys, fuel, acc, rest, _, hwf, hf => by
    obtain ⟨f, rfl⟩ : ∃ f, fuel = f + 1 := ⟨fuel - 1, by rw [fsizeElems] at hf; omega⟩
    have hwx : x.wf = true := by
      rw [wfList] at hwf
      exact ((Bool.and_eq_true _ _).mp hwf).1
    have hwrest : wfList (y :: ys) = true := by
      rw [wfList] at hwf
      exact ((Bool.and_eq_true _ _).mp hwf).2
    have hfx : x.fsize ≤ f := by rw [fsizeElems] at hf; omega
    have hfrest : fsizeElems (y :: ys) ≤ f := by rw [fsizeElems] at hf; omega
    have hde : dumpsElems (x :: y :: ys) = x.dumps ++ ',' :: ' ' :: dumpsElems (y :: ys) := by
      rw [dumpsElems]
    have hsh : (x.dumps ++ ',' :: ' ' :: dumpsElems (y :: ys)) ++ ']' :: rest
        = x.dumps ++ ',' :: ' ' :: (dumpsElems (y :: ys) ++ ']' :: rest) := by simp
    rw [hde, hsh, parseElems_succ]
    rw [parseVal_dumps x f _ hwx hfx (by rw [numTailOk]; decide)]
    simp only [bind, Except.bind]
    rw [skipWs_not_ws ',' _ (by decide)]
    obtain ⟨c, t, hct, hws, _, _, _⟩ := dumpsElems_head y ys
    have hskip : skipWs (' ' :: (dumpsElems (y :: ys) ++ ']' :: rest))
        = dumpsElems (y :: ys) ++ ']' :: rest := by
      rw [skipWs_space, hct, show (c :: t) ++ ']' :: rest = c :: (t ++ ']' :: rest) from rfl,
        skipWs_not_ws c _ hws]
    have hstep := parseElems_dumps (y :: ys) f (acc ++ [x]) rest (by simp) hwrest hfrest
    simp [hskip, hstep]

theorem parseMembers_dumps : ∀ (fs : List (String × JVal)) (fuel : Nat)
    (acc : List (String × JVal)) (rest : List Char),
    fs ≠ [] → wfFields fs = true → ((acc ++ fs).map Prod.fst).Nodup →
    fsizeFields fs ≤ fuel →
    parseMembers fuel acc (dumpsFields fs ++ rbrace :: rest) = .ok (.obj (acc ++ fs), rest)
  | [], _, _, _, hne, _, _, _ => absurd rfl hne
  | [(k, v)], fuel, acc, rest, _, hwf, hnd, hf => by
    obtain ⟨f, rfl⟩ : ∃ f, fuel = f + 1 := ⟨fuel - 1, by rw [fsizeFields] at hf; omega⟩
    have hwv : v.wf = true := by
      rw [wfFields] at hwf
      simpa using ((Bool.and_eq_true _ _).mp hwf).1
    have hfv : v.fsize ≤ f := by simp [fsizeFields] at hf; omega
    have hde : dumpsFields [(k, v)] = strDump k ++ ':' :: ' ' :: v.dumps := by
      rw [dumpsFields]
    have hsh : (strDump k ++ ':' :: ' ' :: v.dumps) ++ rbrace :: rest
        = '"' :: (escList k.data ++ '"' :: (':' :: ' ' :: (v.dumps ++ rbrace :: rest))) := by
      simp [strDump, escList]
    rw [hde, hsh, parseMembers_succ, if_pos rfl]
    rw [parseStrBody_escList k.data [] _]
    simp only [bind, Except.bind, List.nil_append]
    rw [skipWs_not_ws ':' _ (by decide)]
    show (if (':' : Char) = ':' then
        (do
          let (v2, r3) ← parseVal f (skipWs (' ' :: (v.dumps ++ rbrace :: rest)))
          match skipWs r3 with
          | c4 :: r4 =>
            if c4 = ',' then parseMembers f (objInsert acc (String.mk k.data) v2) (skipWs r4)
            else if c4 = rbrace then
              Except.ok (JVal.obj (objInsert acc (String.mk k.data) v2), r4)
            else Except.error ()
          | [] => Except.error ())
      else Except.error ()) = _
    rw [if_pos rfl, skipWs_space, skipWs_dumps v (rbrace :: rest)]
    rw [parseVal_dumps v f _ hwv hfv (by rw [numTailOk]; decide)]
    simp only [bind, Except.bind]
    rw [skipWs_not_ws rbrace rest (by decide)]
    show (if rbrace = ',' then
        parseMembers f (objInsert acc (String.mk k.data) v) (skipWs rest)
      else if rbrace = rbrace then
        Except.ok (JVal.obj (objInsert acc (String.mk k.data) v), rest)
      else Except.error ()) = _
    rw [if_neg (by decide : ¬rbrace = ','), if_pos rfl]
    have hins : objInsert acc k v = acc ++ [(k, v)] := by
      apply objInsert_fresh
      intro p hp hEq
      rw [List.map_append] at hnd
      rcases List.nodup_append.mp hnd with ⟨_, _, hdisj⟩
      exact hdisj (List.mem_map_of_mem Prod.fst hp) (by simp [hEq])
    have hmk : String.mk k.data = k := rfl
    rw [hmk, hins]
  | (k, v) :: g :: gs, fuel, acc, rest, _, hwf, hnd, hf => by
    obtain ⟨f, rfl⟩ : ∃ f, fuel = f + 1 := ⟨fuel - 1, by rw [fsizeFields] at hf; omega⟩
    have hwv : v.wf = true := by
      rw [wfFields] at hwf
      exact ((Bool.and_eq_true _ _).mp hwf).1
    have hwrest : wfFields (g :: gs) = true := by
      rw [wfFields] at hwf
      exact ((Bool.and_eq_true _ _).mp hwf).2
    have hfv : v.fsize ≤ f := by simp [fsizeFields] at hf; omega
    have hfrest : fsizeFields (g :: gs) ≤ f := by simp [fsizeFields] at hf ⊢; omega
    have hde : dumpsFields ((k, v) :: g :: gs)
        = strDump k ++ ':' :: ' ' :: v.dumps ++ ',' :: ' ' :: dumpsFields (g :: gs) := by
      rw [dumpsFields]
    have hsh : (strDump k ++ ':' :: ' ' :: v.dumps ++ ',' :: ' ' :: dumpsFields (g :: gs))
          ++ rbrace :: rest
        = '"' :: (escList k.data ++ '"' :: (':' :: ' ' ::
            (v.dumps ++ ',' :: ' ' :: (dumpsFields (g :: gs) ++ rbrace :: rest)))) := by
      simp [strDump, escList]
    obtain ⟨k2, v2⟩ := g
    rw [hde, hsh, parseMembers_succ, if_pos rfl]
    rw [parseStrBody_escList k.data [] _]
    simp only [bind, Except.bind, List.nil_append]
    rw [skipWs_not_ws ':' _ (by decide)]
    show (if (':' : Char) = ':' then
        (do
          let (w, r3) ← parseVal f
            (skipWs (' ' :: (v.dumps ++ ',' :: ' ' ::
              (dumpsFields ((k2, v2) :: gs) ++ rbrace :: rest))))
          match skipWs r3 with
          | c4 :: r4 =>
            if c4 = ',' then parseMembers f (objInsert acc (String.mk k.data) w) (skipWs r4)
            else if c4 = rbrace then
              Except.ok (JVal.obj (objInsert acc (String.mk k.data) w), r4)
            else Except.error ()
          | [] => Except.error ())
      else Except.error ()) = _
    rw [if_pos rfl, skipWs_space, skipWs_dumps v _]
    rw [parseVal_dumps v f _ hwv hfv (by rw [numTailOk]; decide)]
    simp only [bind, Except.bind]
    rw [skipWs_not_ws ',' _ (by decide)]
    show (if (',' : Char) = ',' then
        parseMembers f (objInsert acc (String.mk k.data) v)
          (skipWs (' ' :: (dumpsFields ((k2, v2) :: gs) ++ rbrace :: rest)))
      else if (',' : Char) = rbrace then
        Except.ok (JVal.obj (objInsert acc (String.mk k.data) v),
          ' ' :: (dumpsFields ((k2, v2) :: gs) ++ rbrace :: rest))
      else Except.error ()) = _
    rw [if_pos rfl]
    have hins : objInsert acc k v = acc ++ [(k, v)] := by
      apply objInsert_fresh
      intro p hp hEq
      rw [List.map_append] at hnd
      rcases List.nodup_append.mp hnd with ⟨_, _, hdisj⟩
      exact hdisj (List.mem_map_of_mem Prod.fst hp) (by simp [hEq])
    have hmk : String.mk k.data = k := rfl
    obtain ⟨t2, hshape2⟩ := dumpsFields_shape k2 v2 gs
    have hskip : skipWs (' ' :: (dumpsFields ((k2, v2) :: gs) ++ rbrace :: rest))
        = dumpsFields ((k2, v2) :: gs) ++ rbrace :: rest := by
      rw [skipWs_space, hshape2,
        show ('"' :: t2) ++ rbrace :: rest = '"' :: (t2 ++ rbrace :: rest) from rfl,
        skipWs_not_ws '"' _ (by decide)]
    have hnd2 : (((acc ++ [(k, v)]) ++ (k2, v2) :: gs).map Prod.fst).Nodup := by
      simpa using hnd
    have hstep := parseMembers_dumps ((k2, v2) :: gs) f (acc ++ [(k, v)]) rest
      (by simp) hwrest hnd2 hfrest
    rw [hmk, hins, hskip, hstep]
    simp

end

mutual

theorem fsize_le_dumps : ∀ v : JVal, v.fsize ≤ (JVal.dumps v).length + 1
  | .null => by simp [JVal.fsize]
  | .bool b => by cases b <;> simp [JVal.fsize]
  | .num n => by simp [JVal.fsize]
  | .str s => by simp [JVal.fsize]
  | .arr xs => by
    have h := fsizeElems_le_dumps xs
    rw [JVal.fsize, JVal.dumps]
    simp only [List.length_cons, List.length_append, List.length_singleton]
    omega
  | .obj fs => by
    have h := fsizeFields_le_dumps fs
    rw [JVal.fsize, JVal.dumps]
    simp only [List.length_cons, List.length_append, List.length_singleton]
    omega

theorem fsizeElems_le_dumps : ∀ xs : List JVal, fsizeElems xs ≤ (dumpsElems xs).length + 2
  | [] => by simp [fsizeElems]
  | [x] => by
    have h := fsize_le_dumps x
    rw [fsizeElems, fsizeElems, dumpsElems]
    omega
  | x :: y :: ys => by
    have h1 := fsize_le_dumps x
    have h2 := fsizeElems_le_dumps (y :: ys)
    rw [fsizeElems, dumpsElems]
    simp only [List.length_append, List.length_cons]
    omega

theorem fsizeFields_le_dumps :
    ∀ fs : List (String × JVal), fsizeFields fs ≤ (dumpsFields fs).length + 2
  | [] => by simp [fsizeFields]
  | [(k, v)] => by
    have h := fsize_le_dumps v
    rw [fsizeFields, fsizeFields, dumpsFields]
    simp only [List.length_append, List.length_cons]
    omega
  | (k, v) :: g :: gs => by
    have h1 := fsize_le_dumps v
    have h2 := fsizeFields_le_dumps (g :: gs)
    rw [fsizeFields, dumpsFields]
    simp only [List.length_append, List.length_cons]
    omega

end

/-- `json.loads` inverts `json.dumps` on every well-formed value. -/
theorem jsonLoads_dumps (v : JVal) (h : v.wf = true) :
    jsonLoads (JVal.dumps v) = .ok v := by
  unfold jsonLoads
  have h1 : skipWs (JVal.dumps v) = JVal.dumps v := by
    have := skipWs_dumps v []
    simpa using this
  rw [h1]
  have h2 := parseVal_dumps v ((JVal.dumps v).length + 1) [] h
    (by have := fsize_le_dumps v; omega) rfl
  rw [show JVal.dumps v ++ [] = JVal.dumps v from by simp] at h2
  rw [h2]
  simp only [bind, Except.bind]
  rfl

/-! ASCII output of the serialiser -/

theorem hexDigit_ascii : ∀ d < 16, (hexDigit d).toNat < 128 := by decide

theorem hex4_ascii (n : Nat) : ∀ c ∈ hex4 n, c.toNat < 128 := by
  intro c hc
  simp only [hex4, List.mem_cons, List.mem_singleton, List.not_mem_nil, or_false] at hc
  rcases hc with rfl | rfl | rfl | rfl <;> exact hexDigit_ascii _ (by omega)

theorem escapeChar_ascii (ch : Char) : ∀ c ∈ escapeChar ch, c.toNat < 128 := by
  intro c hc
  unfold escapeChar at hc
  split_ifs at hc with h1 h2 h3 h4 h5 h6 h7 h8 h9
  · simp only [List.mem_cons, List.not_mem_nil, or_false] at hc
    rcases hc with rfl | rfl <;> decide
  · simp only [List.mem_cons, List.not_mem_nil, or_false] at hc
    rcases hc with rfl | rfl <;> decide
  · simp only [List.mem_cons, List.not_mem_nil, or_false] at hc
    rcases hc with rfl | rfl <;> decide
  · simp only [List.mem_cons, List.not_mem_nil, or_false] at hc
    rcases hc with rfl | rfl <;> decide
  · simp only [List.mem_cons, List.not_mem_nil, or_false] at hc
    rcases hc with rfl | rfl <;> decide
  · simp only [List.mem_cons, List.not_mem_nil, or_false] at hc
    rcases hc with rfl | rfl <;> decide
  · simp only [List.mem_cons, List.not_mem_nil, or_false] at hc
    rcases hc with rfl | rfl <;> decide
  · rcases List.mem_cons.mp hc with rfl | hc
    · decide
    rcases List.mem_cons.mp hc with rfl | hc
    · decide
    exact hex4_ascii _ c hc
  · rcases List.mem_append.mp hc with hc | hc <;>
      (rcases List.mem_cons.mp hc with rfl | hc
       · decide
       rcases List.mem_cons.mp hc with rfl | hc
       · decide
       exact hex4_ascii _ c hc)
  · rcases List.mem_cons.mp hc with rfl | hc
    · simp only [Bool.or_eq_true, decide_eq_true_eq, not_or, not_lt, not_le, ge_iff_le] at h8
      omega
    · simp at hc

theorem strDump_ascii (s : String) : ∀ c ∈ strDump s, c.toNat < 128 := by
  intro c hc
  rw [strDump] at hc
  rcases List.mem_cons.mp hc with rfl | hc
  · decide
  rcases List.mem_append.mp hc with hc | hc
  · obtain ⟨l, hl, hcl⟩ := List.mem_flatten.mp hc
    obtain ⟨d, _, rfl⟩ := List.mem_map.mp hl
    exact escapeChar_ascii d c hcl
  · rcases List.mem_singleton.mp hc with rfl
    decide

mutual

theorem dumps_ascii : ∀ v : JVal, ∀ c ∈ JVal.dumps v, c.toNat < 128
  | .null => by
    intro c hc
    rw [JVal.dumps, show "null".data = ['n', 'u', 'l', 'l'] from rfl] at hc
    simp only [List.mem_cons, List.not_mem_nil, or_false] at hc
    rcases hc with rfl | rfl | rfl | rfl <;> decide
  | .bool true => by
    intro c hc
    rw [JVal.dumps, show "true".data = ['t', 'r', 'u', 'e'] from rfl] at hc
    simp only [List.mem_cons, List.not_mem_nil, or_false] at hc
    rcases hc with rfl | rfl | rfl | rfl <;> decide
  | .bool false => by
    intro c hc
    rw [JVal.dumps, show "false".data = ['f', 'a', 'l', 's', 'e'] from rfl] at hc
    simp only [List.mem_cons, List.not_mem_nil, or_false] at hc
    rcases hc with rfl | rfl | rfl | rfl | rfl <;> decide
  | .num n => by
    intro c hc
    rw [JVal.dumps] at hc
    unfold intChars at hc
    split at hc
    · rcases List.mem_cons.mp hc with rfl | hmem
      · decide
      · have := natDigits_digits _ c hmem
        omega
    · have := natDigits_digits _ c hc
      omega
  | .str s => by
    intro c hc
    rw [JVal.dumps] at hc
    exact strDump_ascii s c hc
  | .arr xs => by
    intro c hc
    rw [JVal.dumps] at hc
    rcases List.mem_cons.mp hc with rfl | hc
    · decide
    rcases List.mem_append.mp hc with hc | hc
    · exact dumpsElems_ascii xs c hc
    · rcases List.mem_singleton.mp hc with rfl
      decide
  | .obj fs => by
    intro c hc
    rw [JVal.dumps] at hc
    rcases List.mem_cons.mp hc with rfl | hc
    · decide
    rcases List.mem_append.mp hc with hc | hc
    · exact dumpsFields_ascii fs c hc
    · rcases List.mem_singleton.mp hc with rfl
      decide

theorem dumpsElems_ascii : ∀ xs : List JVal, ∀ c ∈ dumpsElems xs, c.toNat < 128
  | [] => by intro c hc; rw [dumpsElems] at hc; simp at hc
  | [x] => by
    intro c hc
    rw [dumpsElems] at hc
    exact dumps_ascii x c hc
  | x :: y :: ys => by
    intro c hc
    rw [dumpsElems] at hc
    rcases List.mem_append.mp hc with hc | hc
    · exact dumps_ascii x c hc
    rcases List.mem_cons.mp hc with rfl | hc
    · decide
    rcases List.mem_cons.mp hc with rfl | hc
    · decide
    exact dumpsElems_ascii (y :: ys) c hc

theorem dumpsFields_ascii :
    ∀ fs : List (String × JVal), ∀ c ∈ dumpsFields fs, c.toNat < 128
  | [] => by intro c hc; rw [dumpsFields] at hc; simp at hc
  | [(k, v)] => by
    intro c hc
    rw [dumpsFields] at hc
    rcases List.mem_append.mp hc with hc | hc
    · exact strDump_ascii k c hc
    rcases List.mem_cons.mp hc with rfl | hc
    · decide
    rcases List.mem_cons.mp hc with rfl | hc
    · decide
    exact dumps_ascii v c hc
  | (k, v) :: g :: gs => by
    intro c hc
    rw [dumpsFields] at hc
    rcases List.mem_append.mp hc with hc | hc
    · rcases List.mem_append.mp hc with hc | hc
      · exact strDump_ascii k c hc
      rcases List.mem_cons.mp hc with rfl | hc
      · decide
      rcases List.mem_cons.mp hc with rfl | hc
      · decide
      exact dumps_ascii v c hc
    · rcases List.mem_cons.mp hc with rfl | hc
      · decide
      rcases List.mem_cons.mp hc with rfl | hc
      · decide
      exact dumpsFields_ascii (g :: gs) c hc

end

theorem utf8EncodeChar_bytes (c : Char) : ∀ b ∈ utf8EncodeChar c, b < 256 := by
  intro b hb
  have hv := char_valid_toNat c
  simp only [utf8EncodeChar] at hb
  split_ifs at hb <;>
    simp only [List.mem_cons, List.mem_singleton, List.not_mem_nil, or_false] at hb <;>
    rcases hb with rfl | hb <;> try omega

theorem utf8Encode_bytes (cs : List Char) : ∀ b ∈ utf8Encode cs, b < 256 := by
  intro b hb
  simp only [utf8Encode, List.mem_flatten, List.mem_map] at hb
  obtain ⟨l, ⟨c, _, rfl⟩, hbl⟩ := hb
  exact utf8EncodeChar_bytes c b hbl

/-- `_decode_value` inverts `_encode_value` on well-formed values: the WAL
payload encoding round-trips. -/
theorem decodeValue_encodeValue (v : JVal) (h : v.wf = true) :
    decodeValue (encodeValue v) = .ok v := by
  unfold decodeValue encodeValue
  rw [b64decode_encode _ (utf8Encode_bytes _)]
  simp only [bind, Except.bind]
  rw [utf8Decode_encode_ascii _ (dumps_ascii v)]
  exact jsonLoads_dumps v h

/-! ## The `KVStore` engine (`kvstore/store.py`)

State is the WAL file (a list of appended lines, each written with a
trailing `"\n"`) plus the in-memory dict.  `os.fsync` failure is an
`OSError` out of `_wal_append_sync`; it is modelled by the `fsyncOk`
flag (failure leaves the file unchanged — the claims about failure only
concern the in-memory map).  `random.random()` draws are passed in as
the rational `r` (so `0 ≤ r < 1`), and `debug_flaky` as the rational it
is compared against. -/

structure KVState where
  wal : List (List Char)
  store : Store
deriving DecidableEq

/-- A fresh engine on an empty data directory. -/
def KVState.init : KVState := ⟨[], []⟩

/-- `debug_flaky > 0 and random.random() < debug_flaky`. -/
def flakySkip (debugFlaky r : ℚ) : Bool :=
  decide (0 < debugFlaky) && decide (r < debugFlaky)

/-- `_wal_append_sync`: append the line (the `"\n"` is added by `walFile`
below) and fsync; an `OSError` propagates to the caller. -/
def walAppendSync (fsyncOk : Bool) (st : KVState) (line : List Char) :
    KVState × Except Unit Unit :=
  if fsyncOk then ({ st with wal := st.wal ++ [line] }, .ok ()) else (st, .error ())

/-- The WAL line `f"SET\t{key}\t{_encode_value(value)}"`. -/
def setLine (k : String) (v : JVal) : List Char :=
  "SET".data ++ '\t' :: k.data ++ '\t' :: encodeValue v

/-- The WAL line `f"DEL\t{key}"`. -/
def delLine (k : String) : List Char := "DEL".data ++ '\t' :: k.data

/-- The `bulk_set` payload `[[k, v] for k, v in items]` as a JSON value. -/
def bulkPayload (items : List (String × JVal)) : JVal :=
  .arr (items.map fun p => .arr [.str p.1, p.2])

/-- The WAL line `"BULK_SET\t" + base64.b64encode(json.dumps(payload).encode()).decode()`. -/
def bulkLine (items : List (String × JVal)) : List Char :=
  "BULK_SET".data ++ '\t' :: encodeValue (bulkPayload items)

/-- `KVStore.set`: WAL append + fsync first, then (unless the flaky branch
skips it) the in-memory apply. -/
def KVStore.set (fsyncOk : Bool) (debugFlaky r : ℚ) (k : String) (v : JVal)
    (st : KVState) : KVState × Except Unit Unit :=
  match walAppendSync fsyncOk st (setLine k v) with
  | (st1, .ok _) =>
    if flakySkip debugFlaky r then (st1, .ok ())
    else ({ st1 with store := storeSet st1.store (.str k) v }, .ok ())
  | (st1, .error e) => (st1, .error e)

/-- `KVStore.delete`. -/
def KVStore.delete (fsyncOk : Bool) (debugFlaky r : ℚ) (k : String)
    (st : KVState) : KVState × Except Unit Unit :=
  match walAppendSync fsyncOk st (delLine k) with
  | (st1, .ok _) =>
    if flakySkip debugFlaky r then (st1, .ok ())
    else ({ st1 with store := storePop st1.store (.str k) }, .ok ())
  | (st1, .error e) => (st1, .error e)

/-- `for key, value in items: self._store[key] = value`. -/
def bulkApply (s : Store) : List (String × JVal) → Store
  | [] => s
  | (k, v) :: rest => bulkApply (storeSet s (.str k) v) rest

/-- `KVStore.bulk_set`: early return on empty `items`, one WAL record,
then the in-memory loop. -/
def KVStore.bulk_set (fsyncOk : Bool) (debugFlaky r : ℚ)
    (items : List (String × JVal)) (st : KVState) : KVState × Except Unit Unit :=
  if items.isEmpty then (st, .ok ())
  else
    match walAppendSync fsyncOk st (bulkLine items) with
    | (st1, .ok _) =>
      if flakySkip debugFlaky r then (st1, .ok ())
      else ({ st1 with store := bulkApply st1.store items }, .ok ())
    | (st1, .error e) => (st1, .error e)

/-- `KVStore.get`: `self._store.get(key)`.  Python returns `None` both for
an absent key and for a stored JSON `null` — they are the same object, so
the result collapses to a bare `JVal` with `.null` for absence. -/
def KVStore.get (st : KVState) (k : String) : JVal :=
  (storeGet st.store (.str k)).getD .null

/-! ### WAL replay (`_replay_wal`) -/

/-- The bytes of the WAL file: every appended line followed by `"\n"`. -/
def walFile (wal : List (List Char)) : List Char :=
  (wal.map (fun l => l ++ ['\n'])).flatten

/-- Not a line terminator.  The WAL is read back with
`open(path, "r", encoding="utf-8")`, i.e. universal newlines: `"\n"`,
`"\r"` and `"\r\n"` all end a line. -/
def notNl (c : Char) : Bool := c != '\n' && c != '\r'

/-- `for line in f` on a universal-newlines text file, with
`line.rstrip("\n")` (the terminator is already translated away): the file
split at `"\n"`, `"\r"` or `"\r\n"`, terminators dropped (fuelled; each
step consumes past one terminator). -/
def fileLinesF : Nat → List Char → List (List Char)
  | _, [] => []
  | 0, _ :: _ => []
  | fuel + 1, cs =>
    match cs.dropWhile notNl with
    | [] => [cs.takeWhile notNl]
    | t :: rest =>
      if t = '\r' then
        match rest with
        | '\n' :: rest2 => cs.takeWhile notNl :: fileLinesF fuel rest2
        | _ => cs.takeWhile notNl :: fileLinesF fuel rest
      else cs.takeWhile notNl :: fileLinesF fuel rest

def fileLines (cs : List Char) : List (List Char) := fileLinesF cs.length cs

/-- Not a tab (the field separator). -/
def notTab (c : Char) : Bool := c != '\t'

/-- Split at the first tab, if any. -/
def splitAt1Tab (cs : List Char) : Option (List Char × List Char) :=
  match cs.dropWhile notTab with
  | [] => none
  | _ :: r => some (cs.takeWhile notTab, r)

/-- `line.split("\t", 2)`: at most two splits, so at most three fields,
the third keeping any further tabs. -/
def splitTab2 (cs : List Char) : List (List Char) :=
  match splitAt1Tab cs with
  | none => [cs]
  | some (a, r1) =>
    match splitAt1Tab r1 with
    | none => [a, r1]
    | some (b, r2) => [a, b, r2]

/-- `k, v = elem` on a decoded JSON element: a two-element unpack, or the
`ValueError`/`TypeError` (`none`) that ends the bulk replay loop.  A
two-character string and a two-key object also unpack, to their characters
and keys. -/
def unpackPair : JVal → Option (JVal × JVal)
  | .arr [a, b] => some (a, b)
  | .str s =>
    match s.data with
    | [a, b] => some (.str (String.mk [a]), .str (String.mk [b]))
    | _ => none
  | .obj [(k1, _), (k2, _)] => some (.str k1, .str k2)
  | _ => none

/-- Python hashability of a JSON value (`self._store[k] = v` raises
`TypeError` on a list or dict key). -/
def hashable : JVal → Bool
  | .arr _ => false
  | .obj _ => false
  | _ => true

/-- The `for k, v in pairs` loop under the `except ... : pass`: an
exception stops the loop but keeps the assignments already made. -/
def bulkLoop (s : Store) : List JVal → Store
  | [] => s
  | e :: rest =>
    match unpackPair e with
    | none => s
    | some (k, v) => if hashable k then bulkLoop (storeSet s k v) rest else s

/-- What `for ... in pairs` iterates over: list elements, the characters
of a string, the keys of a dict; anything else raises `TypeError` at the
loop head (`none`). -/
def bulkElems : JVal → Option (List JVal)
  | .arr xs => some xs
  | .str s => some (s.data.map fun c => .str (String.mk [c]))
  | .obj fs => some (fs.map fun p => .str p.1)
  | _ => none

/-- The guarded `BULK_SET` replay body: decode and loop, with
`except (JSONDecodeError, ValueError, TypeError): pass` around the whole
thing (every decode failure is a `ValueError` subclass). -/
def replayBulk (s : Store) (payload : List Char) : Store :=
  match decodeValue payload with
  | .error _ => s
  | .ok pairs =>
    match bulkElems pairs with
    | none => s
    | some es => bulkLoop s es

/-- One iteration of the `_replay_wal` loop.  The `SET` and
`BULK_SET_LEGACY` branches call `_decode_value` with no exception guard,
so a bad payload propagates (`Except.error`); `DEL` ignores extra fields;
`BULK_SET` is guarded. -/
def replayLine (s : Store) (line : List Char) : Except Unit Store :=
  if line = [] then .ok s
  else
    match splitTab2 line with
    | [] => .ok s
    | [_] => .ok s
    | op :: rest =>
      if op = "SET".data then
        match rest with
        | [k, payload] => do
          let v ← decodeValue payload
          .ok (storeSet s (.str (String.mk k)) v)
        | _ => .ok s
      else if op = "DEL".data then
        match rest with
        | k :: _ => .ok (storePop s (.str (String.mk k)))
        | [] => .ok s
      else if op = "BULK_SET".data then
        match rest with
        | [payload] => .ok (replayBulk s payload)
        | _ => .ok s
      else if op = "BULK_SET_LEGACY".data then
        match rest with
        | [k, payload] => do
          let v ← decodeValue payload
          .ok (storeSet s (.str (String.mk k)) v)
        | _ => .ok s
      else .ok s

/-- The `_replay_wal` loop over the file's lines. -/
def replayLines (s : Store) : List (List Char) → Except Unit Store
  | [] => .ok s
  | l :: rest => do
    let s1 ← replayLine s l
    replayLines s1 rest

/-- Opening a `KVStore` on an existing WAL file: `__init__` starts from an
empty dict and replays; an exception during replay propagates out of the
constructor. -/
def KVStore.openWal (file : List Char) : Except Unit Store :=
  replayLines [] (fileLines file)

/-! ### Client operations as data (for the replay-equivalence claim) -/

/-- A client mutation, paired at run time with its `random.random()` draw. -/
inductive Op where
  | set (k : String) (v : JVal)
  | del (k : String)
  | bulk (items : List (String × JVal))
deriving DecidableEq

/-- Keys must not contain tab or newline (spec §3). -/
def keyOk (k : String) : Prop := '\t' ∉ k.data ∧ '\n' ∉ k.data

instance (k : String) : Decidable (keyOk k) :=
  inferInstanceAs (Decidable ('\t' ∉ k.data ∧ '\n' ∉ k.data))

/-- What replay additionally needs of a key: no carriage return either,
because the universal-newlines reader treats `"\r"` as a line terminator
too — a `keyOk` key containing `"\r"` splits its own WAL record on
replay (see the C1/C6 counterexamples). -/
def keySafe (k : String) : Prop := keyOk k ∧ '\r' ∉ k.data

instance (k : String) : Decidable (keySafe k) :=
  inferInstanceAs (Decidable (keyOk k ∧ '\r' ∉ k.data))

/-- A replay-faithful client operation: terminator-free keys, values a
Python caller can hold (duplicate-free object keys). -/
def OpWf : Op → Prop
  | .set k v => keySafe k ∧ v.wf = true
  | .del k => keySafe k
  | .bulk items => ∀ p ∈ items, keySafe p.1 ∧ p.2.wf = true

instance : (o : Op) → Decidable (OpWf o)
  | .set k v => inferInstanceAs (Decidable (keySafe k ∧ v.wf = true))
  | .del k => inferInstanceAs (Decidable (keySafe k))
  | .bulk items => inferInstanceAs (Decidable (∀ p ∈ items, keySafe p.1 ∧ p.2.wf = true))

/-- Run a sequence of client operations (`debug_flaky = 0`, fsync
succeeding), each with its random draw. -/
def runOps : KVState → List (Op × ℚ) → KVState
  | st, [] => st
  | st, (.set k v, r) :: rest => runOps (KVStore.set true 0 r k v st).1 rest
  | st, (.del k, r) :: rest => runOps (KVStore.delete true 0 r k st).1 rest
  | st, (.bulk items, r) :: rest => runOps (KVStore.bulk_set true 0 r items st).1 rest

/-- The same operations applied directly to a map. -/
def applyOps (s : Store) : List (Op × ℚ) → Store
  | [] => s
  | (.set k v, _) :: rest => applyOps (storeSet s (.str k) v) rest
  | (.del k, _) :: rest => applyOps (storePop s (.str k)) rest
  | (.bulk items, _) :: rest => applyOps (bulkApply s items) rest

/-- No WAL line contains a line terminator (true of every line the engine
writes for terminator-free keys; needed for the file to split back into
the lines under the universal-newlines reader). -/
def walGood (wal : List (List Char)) : Prop := ∀ l ∈ wal, '\n' ∉ l ∧ '\r' ∉ l

/-- A Python dict never holds duplicate keys. -/
def storeWf (s : Store) : Prop := (s.map Prod.fst).Nodup

/-! ## Replicated engine (`replicated_store.py`) -/

inductive RepErr where
  | notPrimary
  | durability
deriving DecidableEq

structure RepState where
  kv : KVState
  role : String
  peers : List String
deriving DecidableEq

/-- `ReplicatedKVStore(data_dir, wal_filename, role, peer_urls)` on a
fresh data directory. -/
def RepState.init (role : String) (peers : List String) : RepState :=
  ⟨KVState.init, role, peers⟩

/-- `ReplicatedKVStore.set`: `RuntimeError("not primary")` unless primary,
else the base-class write followed by best-effort replication
(`_replicate_to_peers` swallows every exception and touches no local
state, so it does not appear in the state). -/
def ReplicatedKVStore.set (fsyncOk : Bool) (debugFlaky r : ℚ) (k : String) (v : JVal)
    (st : RepState) : RepState × Except RepErr Unit :=
  if st.role ≠ "primary" then (st, .error .notPrimary)
  else
    match KVStore.set fsyncOk debugFlaky r k v st.kv with
    | (kv1, .ok _) => ({ st with kv := kv1 }, .ok ())
    | (kv1, .error _) => ({ st with kv := kv1 }, .error .durability)

/-- `ReplicatedKVStore.delete`. -/
def ReplicatedKVStore.delete (fsyncOk : Bool) (debugFlaky r : ℚ) (k : String)
    (st : RepState) : RepState × Except RepErr Unit :=
  if st.role ≠ "primary" then (st, .error .notPrimary)
  else
    match KVStore.delete fsyncOk debugFlaky r k st.kv with
    | (kv1, .ok _) => ({ st with kv := kv1 }, .ok ())
    | (kv1, .error _) => ({ st with kv := kv1 }, .error .durability)

/-- `ReplicatedKVStore.bulk_set`. -/
def ReplicatedKVStore.bulk_set (fsyncOk : Bool) (debugFlaky r : ℚ)
    (items : List (String × JVal)) (st : RepState) : RepState × Except RepErr Unit :=
  if st.role ≠ "primary" then (st, .error .notPrimary)
  else
    match KVStore.bulk_set fsyncOk debugFlaky r items st.kv with
    | (kv1, .ok _) => ({ st with kv := kv1 }, .ok ())
    | (kv1, .error _) => ({ st with kv := kv1 }, .error .durability)

/-- `promote_to_primary`: sets the role, touches nothing else. -/
def ReplicatedKVStore.promote_to_primary (st : RepState) : RepState :=
  { st with role := "primary" }

/-- `demote_to_secondary`: sets the role AND replaces the peer list. -/
def ReplicatedKVStore.demote_to_secondary (st : RepState) (peerUrls : List String) : RepState :=
  { st with role := "secondary", peers := peerUrls }

def ReplicatedKVStore.is_primary (st : RepState) : Bool := st.role = "primary"

/-! ## HTTP handlers (`server.py`, `cluster_server.py`)

Modelled after body/query parsing, with the key present; an exception a
handler does not catch escapes `do_POST` (`Except.error`). -/

structure HttpResp where
  status : Nat
  body : JVal
deriving DecidableEq

/-- `KVHandler.do_GET` on `/get?key=...`: `404 {"found": false}` when
`kv.get(key)` `is None`. -/
def httpGet (st : KVState) (k : String) : HttpResp :=
  let value := KVStore.get st k
  if value = .null then ⟨404, .obj [("found", .bool false)]⟩
  else ⟨200, .obj [("found", .bool true), ("value", value)]⟩

/-- `ClusterKVHandler.do_POST` on `/set`: the `is_primary` gate answers
`503 {"error": "not primary"}` before touching the engine. -/
def clusterPostSet (fsyncOk : Bool) (debugFlaky r : ℚ) (k : String) (v : JVal)
    (st : RepState) : RepState × Except RepErr HttpResp :=
  if ¬ ReplicatedKVStore.is_primary st then
    (st, .ok ⟨503, .obj [("error", .str "not primary")]⟩)
  else
    match ReplicatedKVStore.set fsyncOk debugFlaky r k v st with
    | (st1, .ok _) => (st1, .ok ⟨200, .obj [("ok", .bool true)]⟩)
    | (st1, .error e) => (st1, .error e)

/-- `ClusterKVHandler.do_POST` on `/delete`. -/
def clusterPostDelete (fsyncOk : Bool) (debugFlaky r : ℚ) (k : String)
    (st : RepState) : RepState × Except RepErr HttpResp :=
  if ¬ ReplicatedKVStore.is_primary st then
    (st, .ok ⟨503, .obj [("error", .str "not primary")]⟩)
  else
    match ReplicatedKVStore.delete fsyncOk debugFlaky r k st with
    | (st1, .ok _) => (st1, .ok ⟨200, .obj [("ok", .bool true)]⟩)
    | (st1, .error e) => (st1, .error e)

/-- `ClusterKVHandler.do_POST` on `/bulk_set`. -/
def clusterPostBulkSet (fsyncOk : Bool) (debugFlaky r : ℚ)
    (items : List (String × JVal)) (st : RepState) : RepState × Except RepErr HttpResp :=
  if ¬ ReplicatedKVStore.is_primary st then
    (st, .ok ⟨503, .obj [("error", .str "not primary")]⟩)
  else
    match ReplicatedKVStore.bulk_set fsyncOk debugFlaky r items st with
    | (st1, .ok _) => (st1, .ok ⟨200, .obj [("ok", .bool true)]⟩)
    | (st1, .error e) => (st1, .error e)

/-! ## Indexed store (`indexed_store.py`)

The index internals (`indexes.py`) are out of scope; what matters to the
claims is the control flow: `KVStoreWithIndex.set/delete/bulk_set` run the
base-class mutation to completion, then call `index_value`/`remove_key`
with NO exception guard.  Whether that call raises is abstracted into the
`idxRaises` oracle. -/

/-- `KVStoreWithIndex.set`: commit, then `if key in self._store:
self._index.index_value(key, value)` — unguarded. -/
def KVStoreWithIndex.set (idxRaises fsyncOk : Bool) (debugFlaky r : ℚ)
    (k : String) (v : JVal) (st : KVState) : KVState × Except Unit Unit :=
  match KVStore.set fsyncOk debugFlaky r k v st with
  | (st1, .ok _) =>
    if (storeGet st1.store (.str k)).isSome then
      if idxRaises then (st1, .error ()) else (st1, .ok ())
    else (st1, .ok ())
  | (st1, .error e) => (st1, .error e)

/-- `KVStoreWithIndex.delete`: commit, then `self._index.remove_key(key)`
— unguarded. -/
def KVStoreWithIndex.delete (idxRaises fsyncOk : Bool) (debugFlaky r : ℚ)
    (k : String) (st : KVState) : KVState × Except Unit Unit :=
  match KVStore.delete fsyncOk debugFlaky r k st with
  | (st1, .ok _) => if idxRaises then (st1, .error ()) else (st1, .ok ())
  | (st1, .error e) => (st1, .error e)

/-- `KVStoreWithIndex.bulk_set`: commit, then index every applied key —
unguarded. -/
def KVStoreWithIndex.bulk_set (idxRaises fsyncOk : Bool) (debugFlaky r : ℚ)
    (items : List (String × JVal)) (st : KVState) : KVState × Except Unit Unit :=
  match KVStore.bulk_set fsyncOk debugFlaky r items st with
  | (st1, .ok _) =>
    if idxRaises && items.any (fun p => (storeGet st1.store (.str p.1)).isSome) then
      (st1, .error ())
    else (st1, .ok ())
  | (st1, .error e) => (st1, .error e)

/-! ### Splitting lemmas -/

theorem takeDropWhile_sep (p : Char → Bool) :
    ∀ (l t : List Char) (c : Char), (∀ x ∈ l, p x = true) → p c = false →
      (l ++ c :: t).takeWhile p = l ∧ (l ++ c :: t).dropWhile p = c :: t
  | [], t, c, _, hpc => by
    simp [List.takeWhile_cons, List.dropWhile_cons, hpc]
  | x :: l, t, c, h, hpc => by
    have hx : p x = true := h x (List.mem_cons_self x l)
    have ih := takeDropWhile_sep p l t c (fun y hy => h y (List.mem_cons_of_mem x hy)) hpc
    simp [List.takeWhile_cons, List.dropWhile_cons, hx, ih.1, ih.2]

theorem takeDropWhile_all (p : Char → Bool) :
    ∀ l : List Char, (∀ x ∈ l, p x = true) →
      l.takeWhile p = l ∧ l.dropWhile p = []
  | [], _ => by simp
  | x :: l, h => by
    have hx : p x = true := h x (List.mem_cons_self x l)
    have ih := takeDropWhile_all p l (fun y hy => h y (List.mem_cons_of_mem x hy))
    simp [List.takeWhile_cons, List.dropWhile_cons, hx, ih.1, ih.2]

theorem notTab_eq_true (c : Char) : notTab c = true ↔ c ≠ '\t' := by
  simp [notTab, bne_iff_ne]

theorem notNl_eq_true (c : Char) : notNl c = true ↔ c ≠ '\n' ∧ c ≠ '\r' := by
  simp [notNl, bne_iff_ne]

theorem b64chr_not_ctl (d : Nat) :
    b64chr d ≠ '\t' ∧ b64chr d ≠ '\n' ∧ b64chr d ≠ '\r' := by
  have tab : ('\t').toNat = 9 := rfl
  have nl : ('\n').toNat = 10 := rfl
  have cr : ('\r').toNat = 13 := rfl
  unfold b64chr
  split_ifs with h1 h2 h3 h4
  · refine ⟨?_, ?_, ?_⟩ <;> intro h <;>
      (have h' := congrArg Char.toNat h;
       rw [toNat_ofNat_small (65 + d) (by omega)] at h'; omega)
  · refine ⟨?_, ?_, ?_⟩ <;> intro h <;>
      (have h' := congrArg Char.toNat h;
       rw [toNat_ofNat_small (97 + (d - 26)) (by omega)] at h'; omega)
  · refine ⟨?_, ?_, ?_⟩ <;> intro h <;>
      (have h' := congrArg Char.toNat h;
       rw [toNat_ofNat_small (48 + (d - 52)) (by omega)] at h'; omega)
  · exact ⟨by decide, by decide, by decide⟩
  · exact ⟨by decide, by decide, by decide⟩

theorem b64encode_not_ctl : ∀ bs : List Nat, ∀ c ∈ b64encode bs,
    c ≠ '\t' ∧ c ≠ '\n' ∧ c ≠ '\r'
  | [] => by intro c hc; rw [b64encode] at hc; simp at hc
  | [b1] => by
    intro c hc
    rw [b64encode] at hc
    simp only [List.mem_cons, List.not_mem_nil, or_false] at hc
    rcases hc with rfl | rfl | rfl | rfl
    · exact b64chr_not_ctl _
    · exact b64chr_not_ctl _
    · exact ⟨by decide, by decide, by decide⟩
    · exact ⟨by decide, by decide, by decide⟩
  | [b1, b2] => by
    intro c hc
    rw [b64encode] at hc
    simp only [List.mem_cons, List.not_mem_nil, or_false] at hc
    rcases hc with rfl | rfl | rfl | rfl
    · exact b64chr_not_ctl _
    · exact b64chr_not_ctl _
    · exact b64chr_not_ctl _
    · exact ⟨by decide, by decide, by decide⟩
  | b1 :: b2 :: b3 :: rest => by
    intro c hc
    rw [b64encode] at hc
    simp only [List.mem_cons] at hc
    rcases hc with rfl | rfl | rfl | rfl | hmem
    · exact b64chr_not_ctl _
    · exact b64chr_not_ctl _
    · exact b64chr_not_ctl _
    · exact b64chr_not_ctl _
    · exact b64encode_not_ctl rest c hmem

theorem encodeValue_not_ctl (v : JVal) : ∀ c ∈ encodeValue v,
    c ≠ '\t' ∧ c ≠ '\n' ∧ c ≠ '\r' :=
  b64encode_not_ctl _

theorem splitAt1Tab_sep (l t : List Char) (h : ∀ x ∈ l, x ≠ '\t') :
    splitAt1Tab (l ++ '\t' :: t) = some (l, t) := by
  have hs := takeDropWhile_sep notTab l t '\t'
    (fun x hx => (notTab_eq_true x).mpr (h x hx)) (by decide)
  rw [splitAt1Tab, hs.2]
  simp [hs.1]

theorem splitAt1Tab_none (l : List Char) (h : ∀ x ∈ l, x ≠ '\t') :
    splitAt1Tab l = none := by
  have hs := takeDropWhile_all notTab l (fun x hx => (notTab_eq_true x).mpr (h x hx))
  rw [splitAt1Tab, hs.2]

theorem splitTab2_sep2 (a b c : List Char) (ha : ∀ x ∈ a, x ≠ '\t')
    (hb : ∀ x ∈ b, x ≠ '\t') :
    splitTab2 (a ++ '\t' :: (b ++ '\t' :: c)) = [a, b, c] := by
  rw [splitTab2, splitAt1Tab_sep a _ ha]
  simp [splitAt1Tab_sep b c hb]

theorem splitTab2_sep1 (a b : List Char) (ha : ∀ x ∈ a, x ≠ '\t')
    (hb : ∀ x ∈ b, x ≠ '\t') :
    splitTab2 (a ++ '\t' :: b) = [a, b] := by
  rw [splitTab2, splitAt1Tab_sep a _ ha]
  simp [splitAt1Tab_none b hb]

theorem splitTab2_setLine (k : String) (v : JVal) (hk : '\t' ∉ k.data) :
    splitTab2 (setLine k v) = ["SET".data, k.data, encodeValue v] := by
  rw [show setLine k v = "SET".data ++ '\t' :: (k.data ++ '\t' :: encodeValue v)
    from by simp [setLine]]
  exact splitTab2_sep2 _ _ _ (by decide) (fun x hx he => hk (he ▸ hx))

theorem splitTab2_delLine (k : String) (hk : '\t' ∉ k.data) :
    splitTab2 (delLine k) = ["DEL".data, k.data] := by
  rw [delLine]
  exact splitTab2_sep1 _ _ (by decide) (fun x hx he => hk (he ▸ hx))

theorem splitTab2_bulkLine (items : List (String × JVal)) :
    splitTab2 (bulkLine items) = ["BULK_SET".data, encodeValue (bulkPayload items)] := by
  rw [bulkLine]
  exact splitTab2_sep1 _ _ (by decide) (fun x hx => (encodeValue_not_ctl _ x hx).1)

/-! ### Map lemmas -/

theorem storeGet_set_self (s : Store) (k v) : storeGet (storeSet s k v) k = some v := by
  induction s with
  | nil => simp [storeSet, storeGet]
  | cons p rest ih =>
    by_cases h : p.1 = k
    · simp [storeSet, storeGet, h]
    · simp [storeSet, storeGet, h, ih]

theorem storeGet_set_ne (s : Store) (k k' v) (h : k ≠ k') :
    storeGet (storeSet s k v) k' = storeGet s k' := by
  induction s with
  | nil => simp [storeSet, storeGet, h]
  | cons p rest ih =>
    by_cases hp : p.1 = k
    · simp [storeSet, storeGet, hp, h]
    · simp [storeSet, storeGet, hp, ih]

theorem storeSet_keys (s : Store) (k v) :
    (storeSet s k v).map Prod.fst = if k ∈ s.map Prod.fst then s.map Prod.fst
      else s.map Prod.fst ++ [k] := by
  induction s with
  | nil => simp [storeSet]
  | cons p rest ih =>
    by_cases hp : p.1 = k
    · simp [storeSet, hp]
    · simp only [storeSet, if_neg hp, List.map_cons, ih]
      by_cases hm : k ∈ rest.map Prod.fst
      · simp [hm, Ne.symm hp]
      · simp [hm, Ne.symm hp]

theorem storeWf_set (s : Store) (k v) (h : storeWf s) : storeWf (storeSet s k v) := by
  unfold storeWf at h ⊢
  rw [storeSet_keys]
  split
  · exact h
  · next hm =>
    rw [List.nodup_append]
    refine ⟨h, List.nodup_singleton k, ?_⟩
    intro x hx hxk
    rw [List.mem_singleton] at hxk
    subst hxk
    exact hm hx

theorem storeGet_none_of_not_mem (s : Store) (k : JVal) (h : k ∉ s.map Prod.fst) :
    storeGet s k = none := by
  induction s with
  | nil => rfl
  | cons p rest ih =>
    have hp : p.1 ≠ k := fun he => h (by simp [← he])
    simp only [storeGet, if_neg hp]
    exact ih (fun hm => h (by simp [hm]))

theorem storeGet_pop_self (s : Store) (k) (h : storeWf s) :
    storeGet (storePop s k) k = none := by
  induction s with
  | nil => simp [storePop, storeGet]
  | cons p rest ih =>
    have h2 : storeWf rest := (List.nodup_cons.mp h).2
    by_cases hp : p.1 = k
    · subst hp
      simp only [storePop, if_pos rfl]
      exact storeGet_none_of_not_mem rest p.1 (List.nodup_cons.mp h).1
    · simp [storePop, storeGet, hp, ih h2]

theorem storeGet_bulkApply_notmem (items : List (String × JVal)) :
    ∀ (s : Store) (k : JVal), (∀ p ∈ items, JVal.str p.1 ≠ k) →
      storeGet (bulkApply s items) k = storeGet s k := by
  induction items with
  | nil => intro s k _; rfl
  | cons p rest ih =>
    intro s k h
    rw [bulkApply]
    rw [ih _ _ (fun q hq => h q (List.mem_cons_of_mem p hq))]
    exact storeGet_set_ne _ _ _ _ (h p (List.mem_cons_self p rest))

theorem storeGet_bulkApply_mem (items : List (String × JVal)) :
    ∀ (s : Store) (k : String) (v : JVal), (k, v) ∈ items →
      (items.map Prod.fst).Nodup →
      storeGet (bulkApply s items) (.str k) = some v := by
  induction items with
  | nil => intro s k v h _; simp at h
  | cons p rest ih =>
    intro s k v h hnd
    rw [bulkApply]
    rcases List.mem_cons.mp h with rfl | hmem
    · rw [storeGet_bulkApply_notmem rest _ _ ?_]
      · exact storeGet_set_self ..
      · intro q hq he
        have : q.1 = k := by
          have := congrArg (fun j => match j with | JVal.str s => s | _ => "") he
          simpa using this
        have hmem : q.1 ∈ rest.map Prod.fst := List.mem_map_of_mem Prod.fst hq
        rw [this] at hmem
        exact (List.nodup_cons.mp hnd).1 hmem
    · exact ih _ _ _ hmem (List.nodup_cons.mp hnd).2

/-! ### Engine-step lemmas -/

theorem flakySkip_zero (r : ℚ) : flakySkip 0 r = false := by
  simp [flakySkip]

theorem flakySkip_one (r : ℚ) (h : r < 1) : flakySkip 1 r = true := by
  simp [flakySkip, h]

theorem set_step (st : KVState) (k : String) (v : JVal) (r : ℚ) :
    KVStore.set true 0 r k v st =
      (⟨st.wal ++ [setLine k v], storeSet st.store (.str k) v⟩, .ok ()) := by
  simp [KVStore.set, walAppendSync, flakySkip_zero]

theorem delete_step (st : KVState) (k : String) (r : ℚ) :
    KVStore.delete true 0 r k st =
      (⟨st.wal ++ [delLine k], storePop st.store (.str k)⟩, .ok ()) := by
  simp [KVStore.delete, walAppendSync, flakySkip_zero]

theorem bulk_step (st : KVState) (items : List (String × JVal)) (r : ℚ)
    (h : items ≠ []) :
    KVStore.bulk_set true 0 r items st =
      (⟨st.wal ++ [bulkLine items], bulkApply st.store items⟩, .ok ()) := by
  rw [KVStore.bulk_set, if_neg (by simpa [List.isEmpty_iff] using h)]
  simp [walAppendSync, flakySkip_zero]

/-! ### Replay lemmas -/

theorem string_mk_data (s : String) : String.mk s.data = s := rfl

theorem replayLine_set (s : Store) (k : String) (v : JVal) (hk : '\t' ∉ k.data)
    (hv : v.wf = true) :
    replayLine s (setLine k v) = .ok (storeSet s (.str k) v) := by
  rw [replayLine, if_neg (by simp [setLine]), splitTab2_setLine k v hk]
  simp [decodeValue_encodeValue v hv, bind, Except.bind, string_mk_data]

theorem replayLine_del (s : Store) (k : String) (hk : '\t' ∉ k.data) :
    replayLine s (delLine k) = .ok (storePop s (.str k)) := by
  rw [replayLine, if_neg (by simp [delLine]), splitTab2_delLine k hk]
  simp [string_mk_data]

theorem bulkElems_wfList : ∀ items : List (String × JVal),
    (∀ p ∈ items, (p.2).wf = true) →
    wfList (items.map fun p => .arr [.str p.1, p.2]) = true
  | [], _ => rfl
  | p :: rest, h => by
    have hp := h p (List.mem_cons_self p rest)
    have h1 : JVal.wf (.arr [.str p.1, p.2]) = true := by
      simp only [JVal.wf, wfList, hp, Bool.and_true, Bool.true_and]
    rw [List.map_cons, wfList, h1,
      bulkElems_wfList rest (fun q hq => h q (List.mem_cons_of_mem p hq))]
    rfl

theorem bulkPayload_wf (items : List (String × JVal))
    (h : ∀ p ∈ items, (p.2).wf = true) : (bulkPayload items).wf = true := by
  rw [bulkPayload, JVal.wf]
  exact bulkElems_wfList items h

theorem bulkLoop_payload : ∀ (items : List (String × JVal)) (s : Store),
    bulkLoop s (items.map fun p => .arr [.str p.1, p.2]) = bulkApply s items := by
  intro items
  induction items with
  | nil => intro s; rfl
  | cons p rest ih =>
    intro s
    rw [List.map_cons, bulkLoop, bulkApply]
    show bulkLoop (storeSet s (.str p.1) p.2) _ = _
    exact ih _

theorem replayLine_bulk (s : Store) (items : List (String × JVal))
    (hv : ∀ p ∈ items, (p.2).wf = true) :
    replayLine s (bulkLine items) = .ok (bulkApply s items) := by
  rw [replayLine, if_neg (by simp [bulkLine]), splitTab2_bulkLine]
  have hd := decodeValue_encodeValue _ (bulkPayload_wf items hv)
  simp only [replayBulk, hd]
  rw [show bulkElems (bulkPayload items) = some (items.map fun p => .arr [.str p.1, p.2])
    from rfl]
  simp [bulkLoop_payload]

theorem replayLines_append (s : Store) (w1 w2 : List (List Char)) :
    replayLines s (w1 ++ w2) =
      match replayLines s w1 with
      | .ok s1 => replayLines s1 w2
      | .error e => .error e := by
  induction w1 generalizing s with
  | nil => simp [replayLines]
  | cons l w1 ih =>
    rw [List.cons_append, replayLines, replayLines]
    cases h : replayLine s l with
    | ok s1 => simp [bind, Except.bind, ih]
    | error e => simp [bind, Except.bind]

/-! ### The WAL file splits back into its lines -/

theorem fileLinesF_walFile : ∀ (wal : List (List Char)) (fuel : Nat),
    walGood wal → (walFile wal).length ≤ fuel → fileLinesF fuel (walFile wal) = wal
  | [], fuel, _, _ => by
    rw [show walFile [] = [] from rfl]
    cases fuel <;> rfl
  | l :: rest, fuel, hg, hlen => by
    have hl : '\n' ∉ l ∧ '\r' ∉ l := hg l (List.mem_cons_self l rest)
    have hw : walFile (l :: rest) = l ++ '\n' :: walFile rest := by
      simp [walFile]
    have hsep := takeDropWhile_sep notNl l (walFile rest) '\n'
      (fun x hx => (notNl_eq_true x).mpr
        ⟨fun he => hl.1 (he ▸ hx), fun he => hl.2 (he ▸ hx)⟩) (by decide)
    have hgrest : walGood rest := fun m hm => hg m (List.mem_cons_of_mem l hm)
    have hlen2 : (walFile rest).length + l.length + 1 ≤ fuel := by
      rw [hw] at hlen
      simpa [Nat.add_comm, Nat.add_left_comm] using hlen
    match fuel, hlen2 with
    | f + 1, hlen2 =>
      rw [hw]
      have hrest : (walFile rest).length ≤ f := by omega
      cases l with
      | nil =>
        rw [List.nil_append, fileLinesF]
        rw [show List.dropWhile notNl ('\n' :: walFile rest) = '\n' :: walFile rest from by
          simp [List.dropWhile_cons, notNl]]
        simp only []
        rw [if_neg (by decide : ¬('\n' : Char) = '\r')]
        rw [show List.takeWhile notNl ('\n' :: walFile rest) = [] from by
          simp [List.takeWhile_cons, notNl]]
        rw [fileLinesF_walFile rest f hgrest hrest]
        exact fun hcontra => List.noConfusion hcontra
      | cons c l' =>
        simp only [List.cons_append] at hsep ⊢
        rw [fileLinesF, hsep.2]
        simp only []
        rw [if_neg (by decide : ¬('\n' : Char) = '\r')]
        rw [hsep.1, fileLinesF_walFile rest f hgrest hrest]
        exact fun hcontra => List.noConfusion hcontra

theorem fileLines_walFile (wal : List (List Char)) (hg : walGood wal) :
    fileLines (walFile wal) = wal :=
  fileLinesF_walFile wal _ hg le_rfl

/-! ### Lines the engine writes are terminator-free -/

theorem setLine_no_nl (k : String) (v : JVal) (hk2 : '\n' ∉ k.data)
    (hk3 : '\r' ∉ k.data) : '\n' ∉ setLine k v ∧ '\r' ∉ setLine k v := by
  constructor <;> intro h <;> rw [setLine] at h
  · rcases List.mem_append.mp h with h | h
    · rcases List.mem_append.mp h with h | h
      · revert h; decide
      · rcases List.mem_cons.mp h with h | h
        · exact absurd h (by decide)
        · exact hk2 h
    · rcases List.mem_cons.mp h with h | h
      · exact absurd h (by decide)
      · exact (encodeValue_not_ctl v '\n' h).2.1 rfl
  · rcases List.mem_append.mp h with h | h
    · rcases List.mem_append.mp h with h | h
      · revert h; decide
      · rcases List.mem_cons.mp h with h | h
        · exact absurd h (by decide)
        · exact hk3 h
    · rcases List.mem_cons.mp h with h | h
      · exact absurd h (by decide)
      · exact (encodeValue_not_ctl v '\r' h).2.2 rfl

theorem delLine_no_nl (k : String) (hk2 : '\n' ∉ k.data) (hk3 : '\r' ∉ k.data) :
    '\n' ∉ delLine k ∧ '\r' ∉ delLine k := by
  constructor <;> intro h <;> rw [delLine] at h
  · rcases List.mem_append.mp h with h | h
    · revert h; decide
    · rcases List.mem_cons.mp h with h | h
      · exact absurd h (by decide)
      · exact hk2 h
  · rcases List.mem_append.mp h with h | h
    · revert h; decide
    · rcases List.mem_cons.mp h with h | h
      · exact absurd h (by decide)
      · exact hk3 h

theorem bulkLine_no_nl (items : List (String × JVal)) :
    '\n' ∉ bulkLine items ∧ '\r' ∉ bulkLine items := by
  constructor <;> intro h <;> rw [bulkLine] at h
  · rcases List.mem_append.mp h with h | h
    · revert h; decide
    · rcases List.mem_cons.mp h with h | h
      · exact absurd h (by decide)
      · exact (encodeValue_not_ctl _ '\n' h).2.1 rfl
  · rcases List.mem_append.mp h with h | h
    · revert h; decide
    · rcases List.mem_cons.mp h with h | h
      · exact absurd h (by decide)
      · exact (encodeValue_not_ctl _ '\r' h).2.2 rfl

theorem walGood_append (wal : List (List Char)) (l : List Char)
    (hg : walGood wal) (hl : '\n' ∉ l ∧ '\r' ∉ l) : walGood (wal ++ [l]) := by
  intro m hm
  rcases List.mem_append.mp hm with h | h
  · exact hg m h
  · rw [List.mem_singleton] at h
    exact h ▸ hl

/-! ### Replay equivalence machinery -/

theorem runOps_replay : ∀ (ops : List (Op × ℚ)) (st : KVState),
    (∀ o ∈ ops, OpWf o.1) → walGood st.wal →
    replayLines [] st.wal = .ok st.store →
    walGood (runOps st ops).wal ∧
    replayLines [] (runOps st ops).wal = .ok (runOps st ops).store := by
  intro ops
  induction ops with
  | nil => intro st _ hg hr; exact ⟨hg, hr⟩
  | cons o rest ih =>
    intro st hwf hg hr
    obtain ⟨o, r⟩ := o
    have hwfo : OpWf o := hwf (o, r) (List.mem_cons_self _ rest)
    have hwfrest : ∀ q ∈ rest, OpWf q.1 := fun q hq => hwf q (List.mem_cons_of_mem _ hq)
    cases o with
    | set k v =>
      obtain ⟨hk, hv⟩ := hwfo
      rw [runOps]
      apply ih _ hwfrest
      · rw [set_step]
        exact walGood_append _ _ hg (setLine_no_nl k v hk.1.2 hk.2)
      · rw [set_step]
        show replayLines [] (st.wal ++ [setLine k v]) = _
        rw [replayLines_append, hr]
        show replayLines st.store [setLine k v] = _
        rw [replayLines, replayLine_set st.store k v hk.1.1 hv]
        rfl
    | del k =>
      have hk : keySafe k := hwfo
      rw [runOps]
      apply ih _ hwfrest
      · rw [delete_step]
        exact walGood_append _ _ hg (delLine_no_nl k hk.1.2 hk.2)
      · rw [delete_step]
        show replayLines [] (st.wal ++ [delLine k]) = _
        rw [replayLines_append, hr]
        show replayLines st.store [delLine k] = _
        rw [replayLines, replayLine_del st.store k hk.1.1]
        rfl
    | bulk items =>
      have hv : ∀ p ∈ items, (p.2).wf = true := fun p hp => (hwfo p hp).2
      rw [runOps]
      cases hcase : items with
      | nil =>
        apply ih _ hwfrest
        · simpa [KVStore.bulk_set] using hg
        · simpa [KVStore.bulk_set] using hr
      | cons p ps =>
        rw [← hcase]
        have hne : items ≠ [] := by rw [hcase]; exact List.cons_ne_nil p ps
        apply ih _ hwfrest
        · rw [bulk_step _ _ _ hne]
          exact walGood_append _ _ hg (bulkLine_no_nl items)
        · rw [bulk_step _ _ _ hne]
          show replayLines [] (st.wal ++ [bulkLine items]) = _
          rw [replayLines_append, hr]
          show replayLines st.store [bulkLine items] = _
          rw [replayLines, replayLine_bulk st.store items hv]
          rfl

theorem runOps_store : ∀ (ops : List (Op × ℚ)) (st : KVState),
    (runOps st ops).store = applyOps st.store ops := by
  intro ops
  induction ops with
  | nil => intro st; rfl
  | cons o rest ih =>
    intro st
    obtain ⟨o, r⟩ := o
    cases o with
    | set k v =>
      rw [runOps, applyOps, ih, set_step]
    | del k =>
      rw [runOps, applyOps, ih, delete_step]
    | bulk items =>
      cases hcase : items with
      | nil =>
        rw [runOps, applyOps, ih]
        rfl
      | cons p ps =>
        rw [← hcase, runOps, applyOps, ih, bulk_step _ _ _ (by rw [hcase]; exact List.cons_ne_nil p ps)]

/-! ### Flaky-branch step lemmas -/

theorem set_step_flaky (st : KVState) (k : String) (v : JVal) (r : ℚ) (hr : r < 1) :
    KVStore.set true 1 r k v st = (⟨st.wal ++ [setLine k v], st.store⟩, .ok ()) := by
  simp [KVStore.set, walAppendSync, flakySkip_one r hr]

theorem bulk_step_flaky (st : KVState) (items : List (String × JVal)) (r : ℚ)
    (hr : r < 1) (h : items ≠ []) :
    KVStore.bulk_set true 1 r items st =
      (⟨st.wal ++ [bulkLine items], st.store⟩, .ok ()) := by
  rw [KVStore.bulk_set, if_neg (by simpa [List.isEmpty_iff] using h)]
  simp [walAppendSync, flakySkip_one r hr]

theorem bulkApply_append : ∀ (xs ys : List (String × JVal)) (s : Store),
    bulkApply s (xs ++ ys) = bulkApply (bulkApply s xs) ys
  | [], ys, s => rfl
  | (k, v) :: xs, ys, s => by
    rw [List.cons_append, bulkApply, bulkApply]
    exact bulkApply_append xs ys _

/-! ## The claims -/

/-- **C1** counterexample: the key `"a\rb"` satisfies the spec's key
restriction (no tab, no newline), yet after `set("a\rb", true)` the
universal-newlines reader splits the WAL record `SET\ta\rb\t...` at the
carriage return into two lines, both of which replay skips — replay
recovers an empty map while applying the operation yields `a\rb ↦ true`.
The original replay-equivalence claim, quantified over all spec-legal
keys, is refuted. -/
theorem c1_counterexample :
    keyOk "a\rb" ∧ (JVal.bool true).wf = true ∧
    (runOps KVState.init [(Op.set "a\rb" (.bool true), 0)]).wal
      = [setLine "a\rb" (.bool true)] ∧
    KVStore.openWal (walFile [setLine "a\rb" (.bool true)]) = .ok [] ∧
    applyOps [] [(Op.set "a\rb" (.bool true), 0)] = [(.str "a\rb", .bool true)] ∧
    ([] : Store) ≠ [(.str "a\rb", .bool true)] := by
  refine ⟨by decide, rfl, ?_, rfl, rfl, by decide⟩
  rw [runOps, set_step, runOps]
  rfl

/-- **C1** amended (replay equivalence): replay is deterministic —
opening the engine twice on the same WAL file yields the same map — and
for any sequence of `set`/`delete`/`bulk_set` operations run with
`debug_flaky = 0` (any fsync-succeeding draws) from a fresh engine,
replaying the WAL those operations wrote rebuilds exactly the map
obtained by applying the operations in order to an empty map — PROVIDED
the keys contain no carriage return either: the spec's tab/newline
restriction is not enough, because the universal-newlines WAL reader
also splits lines at `"\r"` (see the counterexample), silently losing
such writes.  Values are Python-representable. -/
theorem c1_replay_equivalence (ops : List (Op × ℚ)) (h : ∀ o ∈ ops, OpWf o.1) :
    (∀ (file : List Char) (s1 s2 : Store),
      KVStore.openWal file = .ok s1 → KVStore.openWal file = .ok s2 → s1 = s2) ∧
    KVStore.openWal (walFile (runOps KVState.init ops).wal) = .ok (applyOps [] ops) := by
  constructor
  · intro file s1 s2 h1 h2
    rw [h1] at h2
    exact Except.ok.inj h2
  · have hmain := runOps_replay ops KVState.init h
      (fun l hl => absurd hl (List.not_mem_nil l)) rfl
    rw [KVStore.openWal, fileLines_walFile _ hmain.1, hmain.2, runOps_store]
    rfl

/-- Witness for C1 at a concrete operation sequence. -/
theorem c1_replay_equivalence_witness :
    (∀ o ∈ [(Op.set "a" (.num 1), (0 : ℚ)), (Op.bulk [("b", .bool true), ("a", .null)], 1/2),
      (Op.del "b", 0)], OpWf o.1) ∧
    KVStore.openWal (walFile (runOps KVState.init
        [(Op.set "a" (.num 1), (0 : ℚ)), (Op.bulk [("b", .bool true), ("a", .null)], 1/2),
          (Op.del "b", 0)]).wal) =
      .ok (applyOps [] [(Op.set "a" (.num 1), (0 : ℚ)),
        (Op.bulk [("b", .bool true), ("a", .null)], 1/2), (Op.del "b", 0)]) :=
  ⟨by decide, (c1_replay_equivalence _ (by decide)).2⟩

/-- **C2** (code bug): the spec says replay skips every malformed line
silently, but the `SET` replay branch calls `_decode_value` with no
exception guard: a `SET` line with a correct field count and an
undecodable payload raises out of `_replay_wal`, so opening an engine on
such a WAL fails.  (A wrong-field-count line IS skipped, as the first
conjunct shows; the unguarded decode refutes the universal claim.) -/
theorem c2_malformed_set_line_raises :
    replayLine [] "SET\tk".data = .ok [] ∧
    replayLine [] "SET\tk\t!!!".data = .error () ∧
    KVStore.openWal (walFile ["SET\tk\t!!!".data]) = .error () := by
  refine ⟨rfl, rfl, rfl⟩

/-- **C3** counterexample: a decodable `BULK_SET` payload
`[["a", true], [["x"], null]]` replays PARTIALLY — both elements are
two-element pairs of the encoded array, yet only `"a" ↦ true` is applied:
assigning the unhashable key `["x"]` raises `TypeError` mid-loop, the
blanket `except` swallows it, and the partial map survives.  Neither "all
pairs" nor "none". -/
theorem c3_counterexample :
    replayLine [] ("BULK_SET".data ++ '\t' ::
        encodeValue (.arr [.arr [.str "a", .bool true], .arr [.arr [.str "x"], .null]])) =
      .ok [(.str "a", .bool true)] ∧
    storeGet [((JVal.str "a"), (JVal.bool true))] (.arr [.str "x"]) = none ∧
    ([((JVal.str "a"), (JVal.bool true))] : Store) ≠ [] := by
  refine ⟨?_, rfl, by decide⟩
  rw [replayLine, if_neg (by simp),
    splitTab2_sep1 _ _ (by decide) (fun x hx he => (encodeValue_not_ctl _ x hx).1 he)]
  show Except.ok (replayBulk []
    (encodeValue (.arr [.arr [.str "a", .bool true], .arr [.arr [.str "x"], .null]]))) = _
  rw [replayBulk, decodeValue_encodeValue
    (.arr [.arr [.str "a", .bool true], .arr [.arr [.str "x"], .null]]) rfl]
  rfl

/-- **C3** amended: `BULK_SET` replay applies a PREFIX of the decoded
pairs — all of them when every element is a two-element `[key, value]`
pair with hashable key (in particular for every record `bulk_set` itself
writes), and none when the payload fails to decode; but not all-or-nothing
for arbitrary decodable payloads (see the counterexample). -/
theorem c3_bulk_replay_semantics (s : Store) (payload : List Char)
    (hp : '\t' ∉ payload) :
    (decodeValue payload = .error () →
      replayLine s ("BULK_SET".data ++ '\t' :: payload) = .ok s) ∧
    (∀ items : List (String × JVal), payload = encodeValue (bulkPayload items) →
      (∀ p ∈ items, (p.2).wf = true) →
      replayLine s ("BULK_SET".data ++ '\t' :: payload) = .ok (bulkApply s items)) := by
  constructor
  · intro hdec
    rw [replayLine, if_neg (by simp),
      splitTab2_sep1 _ _ (by decide) (fun x hx he => hp (he ▸ hx))]
    simp [replayBulk, hdec]
  · intro items hpay hwf
    subst hpay
    exact replayLine_bulk s items hwf

/-- Witness for C3's amended theorem at a concrete single-pair record. -/
theorem c3_bulk_replay_semantics_witness :
    '\t' ∉ encodeValue (bulkPayload [("a", JVal.bool true)]) ∧
    replayLine [] ("BULK_SET".data ++ '\t' ::
        encodeValue (bulkPayload [("a", JVal.bool true)])) =
      .ok (bulkApply [] [("a", JVal.bool true)]) :=
  ⟨fun hx => (encodeValue_not_ctl _ _ hx).1 rfl,
   (c3_bulk_replay_semantics [] _ (fun hx => (encodeValue_not_ctl _ _ hx).1 rfl)).2
     [("a", JVal.bool true)] rfl (by decide)⟩

/-- **C4** (role gating with atomicity): on a secondary, every
client-facing mutation raises `RuntimeError("not primary")` with the
whole state — WAL and map — unchanged, and over HTTP the cluster handler
answers `503 {"error": "not primary"}` without touching the engine. -/
theorem c4_role_gating (st : RepState) (h : st.role = "secondary")
    (fsyncOk : Bool) (p r : ℚ) (k : String) (v : JVal) (items : List (String × JVal)) :
    ReplicatedKVStore.set fsyncOk p r k v st = (st, .error .notPrimary) ∧
    ReplicatedKVStore.delete fsyncOk p r k st = (st, .error .notPrimary) ∧
    ReplicatedKVStore.bulk_set fsyncOk p r items st = (st, .error .notPrimary) ∧
    clusterPostSet fsyncOk p r k v st =
      (st, .ok ⟨503, .obj [("error", .str "not primary")]⟩) ∧
    clusterPostDelete fsyncOk p r k st =
      (st, .ok ⟨503, .obj [("error", .str "not primary")]⟩) ∧
    clusterPostBulkSet fsyncOk p r items st =
      (st, .ok ⟨503, .obj [("error", .str "not primary")]⟩) := by
  have hne : st.role ≠ "primary" := by rw [h]; decide
  have hnp : ReplicatedKVStore.is_primary st = false := by
    simp [ReplicatedKVStore.is_primary, hne]
  refine ⟨?_, ?_, ?_, ?_, ?_, ?_⟩ <;>
    simp [ReplicatedKVStore.set, ReplicatedKVStore.delete, ReplicatedKVStore.bulk_set,
      clusterPostSet, clusterPostDelete, clusterPostBulkSet, hne, hnp]

/-- Witness for C4 on a concrete secondary. -/
theorem c4_role_gating_witness :
    (RepState.init "secondary" ["http://p"]).role = "secondary" ∧
    ReplicatedKVStore.set true 0 0 "a" .null (RepState.init "secondary" ["http://p"]) =
      (RepState.init "secondary" ["http://p"], .error .notPrimary) ∧
    clusterPostSet true 0 0 "a" .null (RepState.init "secondary" ["http://p"]) =
      (RepState.init "secondary" ["http://p"],
        .ok ⟨503, .obj [("error", .str "not primary")]⟩) :=
  ⟨rfl, (c4_role_gating _ rfl true 0 0 "a" .null []).1,
    (c4_role_gating _ rfl true 0 0 "a" .null []).2.2.2.1⟩

/-- **C5** (durability-failure atomicity): when the WAL write/fsync fails,
`set`/`delete`/`bulk_set` raise and the engine state — in particular the
in-memory map — is untouched (`bulk_set` on empty `items` returns before
ever appending, so the nonempty case is the one with a failing append). -/
theorem c5_durability_failure (st : KVState) (p r : ℚ) (k : String) (v : JVal)
    (items : List (String × JVal)) (hne : items ≠ []) :
    KVStore.set false p r k v st = (st, .error ()) ∧
    KVStore.delete false p r k st = (st, .error ()) ∧
    KVStore.bulk_set false p r items st = (st, .error ()) := by
  refine ⟨?_, ?_, ?_⟩
  · simp [KVStore.set, walAppendSync]
  · simp [KVStore.delete, walAppendSync]
  · rw [KVStore.bulk_set, if_neg (by simpa [List.isEmpty_iff] using hne)]
    simp [walAppendSync]

/-- Witness for C5. -/
theorem c5_durability_failure_witness :
    (([(("a" : String), JVal.num 1)] : List (String × JVal)) ≠ []) ∧
    KVStore.set false 0 0 "k" .null KVState.init = (KVState.init, .error ()) ∧
    KVStore.bulk_set false 0 0 [("a", JVal.num 1)] KVState.init = (KVState.init, .error ()) :=
  ⟨by decide,
    (c5_durability_failure KVState.init 0 0 "k" .null [("a", JVal.num 1)] (by decide)).1,
    (c5_durability_failure KVState.init 0 0 "k" .null [("a", JVal.num 1)] (by decide)).2.2⟩

/-- **C6** counterexample: with `debug_flaky = 1.0` and the spec-legal
key `"a\rb"`, the record IS durably appended and fsynced, but on reopen
the universal-newlines reader splits the line at the carriage return and
replay skips both halves: the reopened map is empty and `get` returns
`None`, not the written value — refuting flaky recovery as claimed for
every spec-legal key. -/
theorem c6_counterexample :
    keyOk "a\rb" ∧ (JVal.bool true).wf = true ∧
    KVStore.set true 1 0 "a\rb" (.bool true) KVState.init =
      (⟨[setLine "a\rb" (.bool true)], []⟩, .ok ()) ∧
    KVStore.openWal (walFile [setLine "a\rb" (.bool true)]) = .ok [] ∧
    KVStore.get ⟨[setLine "a\rb" (.bool true)], []⟩ "a\rb" = .null ∧
    JVal.null ≠ .bool true := by
  refine ⟨by decide, rfl, ?_, rfl, rfl, by decide⟩
  exact set_step_flaky KVState.init "a\rb" (.bool true) 0 zero_lt_one

/-- **C6** amended (flaky recovery): with `debug_flaky = 1.0` (so any
draw `r < 1` skips the apply), `set(k, v)` — and a `bulk_set` whose last
pair is `(k, v)` — returns success, appends its record to the WAL, leaves
the in-memory map unchanged (so the immediate `get` sees the old state),
and after close/reopen the replayed map yields `get(k) = v` — PROVIDED
the key also contains no carriage return: the spec's tab/newline
restriction is not enough, because the universal-newlines WAL reader
splits the record at `"\r"` and the write is lost (see the
counterexample). -/
theorem c6_flaky_recovery (st : KVState) (k : String) (v : JVal) (r : ℚ) (s0 : Store)
    (hr : r < 1) (hk : keySafe k) (hv : v.wf = true)
    (hwal : walGood st.wal) (hreplay : replayLines [] st.wal = .ok s0) :
    KVStore.set true 1 r k v st = (⟨st.wal ++ [setLine k v], st.store⟩, .ok ()) ∧
    KVStore.openWal (walFile (st.wal ++ [setLine k v])) = .ok (storeSet s0 (.str k) v) ∧
    KVStore.get ⟨st.wal ++ [setLine k v], storeSet s0 (.str k) v⟩ k = v ∧
    (∀ pre : List (String × JVal), (∀ q ∈ pre, keyOk q.1 ∧ (q.2).wf = true) →
      KVStore.bulk_set true 1 r (pre ++ [(k, v)]) st =
        (⟨st.wal ++ [bulkLine (pre ++ [(k, v)])], st.store⟩, .ok ()) ∧
      KVStore.openWal (walFile (st.wal ++ [bulkLine (pre ++ [(k, v)])])) =
        .ok (bulkApply s0 (pre ++ [(k, v)])) ∧
      KVStore.get ⟨st.wal ++ [bulkLine (pre ++ [(k, v)])], bulkApply s0 (pre ++ [(k, v)])⟩ k
        = v) := by
  refine ⟨set_step_flaky st k v r hr, ?_, ?_, ?_⟩
  · rw [KVStore.openWal,
      fileLines_walFile _ (walGood_append _ _ hwal (setLine_no_nl k v hk.1.2 hk.2)),
      replayLines_append, hreplay]
    show replayLines s0 [setLine k v] = _
    rw [replayLines, replayLine_set s0 k v hk.1.1 hv]
    rfl
  · show (storeGet (storeSet s0 (.str k) v) (.str k)).getD .null = v
    rw [storeGet_set_self]
    rfl
  · intro pre hq
    have hne : pre ++ [(k, v)] ≠ [] := by simp
    have hwf : ∀ p ∈ pre ++ [(k, v)], (p.2).wf = true := by
      intro p hp
      rcases List.mem_append.mp hp with hp | hp
      · exact (hq p hp).2
      · rw [List.mem_singleton] at hp
        rw [hp]
        exact hv
    refine ⟨bulk_step_flaky st _ r hr hne, ?_, ?_⟩
    · rw [KVStore.openWal,
        fileLines_walFile _ (walGood_append _ _ hwal (bulkLine_no_nl _)),
        replayLines_append, hreplay]
      show replayLines s0 [bulkLine (pre ++ [(k, v)])] = _
      rw [replayLines, replayLine_bulk s0 _ hwf]
      rfl
    · show (storeGet (bulkApply s0 (pre ++ [(k, v)])) (.str k)).getD .null = v
      rw [bulkApply_append, bulkApply, bulkApply, storeGet_set_self]
      rfl

/-- Witness for C6 on a fresh engine. -/
theorem c6_flaky_recovery_witness :
    ((0 : ℚ) < 1) ∧ keySafe "a" ∧ (JVal.num 7).wf = true ∧
    walGood KVState.init.wal ∧ replayLines [] KVState.init.wal = .ok [] ∧
    KVStore.set true 1 0 "a" (.num 7) KVState.init =
      (⟨[setLine "a" (.num 7)], []⟩, .ok ()) ∧
    KVStore.openWal (walFile ([] ++ [setLine "a" (.num 7)])) =
      .ok (storeSet [] (.str "a") (.num 7)) ∧
    KVStore.get ⟨[] ++ [setLine "a" (.num 7)], storeSet [] (.str "a") (.num 7)⟩ "a" = .num 7 :=
  ⟨zero_lt_one, by decide, rfl, fun l hl => absurd hl (List.not_mem_nil l), rfl,
    (c6_flaky_recovery KVState.init "a" (.num 7) 0 [] zero_lt_one (by decide) rfl
      (fun l hl => absurd hl (List.not_mem_nil l)) rfl).1,
    (c6_flaky_recovery KVState.init "a" (.num 7) 0 [] zero_lt_one (by decide) rfl
      (fun l hl => absurd hl (List.not_mem_nil l)) rfl).2.1,
    (c6_flaky_recovery KVState.init "a" (.num 7) 0 [] zero_lt_one (by decide) rfl
      (fun l hl => absurd hl (List.not_mem_nil l)) rfl).2.2.1⟩

/-- **C7** (round-trip laws, single writer, `debug_flaky = 0`):
`set(k,v); get(k) = v`; `set(k,v); delete(k); get(k) = None`; and after
`bulk_set` of distinct-keyed pairs, `get(k_i) = v_i` for every pair. -/
theorem c7_roundtrip_laws (st : KVState) (k : String) (v : JVal) (r r1 r2 : ℚ)
    (hwf : storeWf st.store) (items : List (String × JVal))
    (hnd : (items.map Prod.fst).Nodup) :
    KVStore.get (KVStore.set true 0 r k v st).1 k = v ∧
    KVStore.get (KVStore.delete true 0 r2 k (KVStore.set true 0 r1 k v st).1).1 k = .null ∧
    (∀ p ∈ items, KVStore.get (KVStore.bulk_set true 0 r items st).1 p.1 = p.2) := by
  refine ⟨?_, ?_, ?_⟩
  · rw [set_step]
    show (storeGet (storeSet st.store (.str k) v) (.str k)).getD .null = v
    rw [storeGet_set_self]
    rfl
  · rw [set_step, delete_step]
    show (storeGet (storePop (storeSet st.store (.str k) v) (.str k)) (.str k)).getD .null
      = .null
    rw [storeGet_pop_self _ _ (storeWf_set st.store (.str k) v hwf)]
    rfl
  · intro p hp
    have hne : items ≠ [] := by
      rintro rfl
      exact absurd hp (List.not_mem_nil p)
    rw [bulk_step _ _ _ hne]
    show (storeGet (bulkApply st.store items) (.str p.1)).getD .null = p.2
    rw [storeGet_bulkApply_mem items st.store p.1 p.2 hp hnd]
    rfl

/-- Witness for C7 on a fresh engine. -/
theorem c7_roundtrip_laws_witness :
    storeWf KVState.init.store ∧
    ([(("x" : String), JVal.num 2), ("y", JVal.bool false)].map Prod.fst).Nodup ∧
    KVStore.get (KVStore.set true 0 0 "a" (.str "hi") KVState.init).1 "a" = .str "hi" ∧
    (∀ p ∈ [(("x" : String), JVal.num 2), ("y", JVal.bool false)],
      KVStore.get (KVStore.bulk_set true 0 0
        [(("x" : String), JVal.num 2), ("y", JVal.bool false)] KVState.init).1 p.1 = p.2) :=
  ⟨List.nodup_nil, by decide,
    (c7_roundtrip_laws KVState.init "a" (.str "hi") 0 0 0 List.nodup_nil
      [(("x" : String), JVal.num 2), ("y", JVal.bool false)] (by decide)).1,
    (c7_roundtrip_laws KVState.init "a" (.str "hi") 0 0 0 List.nodup_nil
      [(("x" : String), JVal.num 2), ("y", JVal.bool false)] (by decide)).2.2⟩

/-- **C8** counterexample: a node constructed with peers `["http://a"]`,
demoted with `["http://b"]` and then promoted ends with peers
`["http://b"]`, NOT the construction-time list — `demote_to_secondary`
replaces the peer list, refuting "retains whatever peer list it was given
at construction" for promote-after-demote histories. -/
theorem c8_counterexample :
    (ReplicatedKVStore.promote_to_primary
      (ReplicatedKVStore.demote_to_secondary
        (RepState.init "primary" ["http://a"]) ["http://b"])).peers = ["http://b"] ∧
    (["http://b"] : List String) ≠ ["http://a"] := by
  refine ⟨rfl, by decide⟩

/-- **C8** amended: `promote_to_primary` sets the role to primary, is
idempotent (a no-op on a node that is already primary), and preserves the
CURRENT peer list; the peer list changes only when `demote_to_secondary`
replaces it with its argument. -/
theorem c8_promote_semantics (st : RepState) (ps : List String) :
    (ReplicatedKVStore.promote_to_primary st).role = "primary" ∧
    ReplicatedKVStore.promote_to_primary (ReplicatedKVStore.promote_to_primary st) =
      ReplicatedKVStore.promote_to_primary st ∧
    (st.role = "primary" → ReplicatedKVStore.promote_to_primary st = st) ∧
    (ReplicatedKVStore.promote_to_primary st).peers = st.peers ∧
    (ReplicatedKVStore.demote_to_secondary st ps).peers = ps := by
  refine ⟨rfl, rfl, ?_, rfl, rfl⟩
  intro h
  cases st with
  | mk kv role peers =>
    simp only at h
    simp [ReplicatedKVStore.promote_to_primary, h]

/-- Witness for C8's amended theorem. -/
theorem c8_promote_semantics_witness :
    (ReplicatedKVStore.promote_to_primary (RepState.init "primary" ["http://a"])).role
      = "primary" ∧
    (RepState.init "primary" ["http://a"]).role = "primary" ∧
    ReplicatedKVStore.promote_to_primary (RepState.init "primary" ["http://a"]) =
      RepState.init "primary" ["http://a"] :=
  ⟨(c8_promote_semantics (RepState.init "primary" ["http://a"]) []).1, rfl,
    (c8_promote_semantics (RepState.init "primary" ["http://a"]) []).2.2.1 rfl⟩

/-- **C9** (code bug): the indexed store's mutations run the index
maintenance AFTER the commit with no exception guard: when it raises, the
WAL record is appended and the map is updated, yet the call raises
instead of returning success — refuting "the mutation still succeeds"
as seen by the caller (and nothing marks the index stale). -/
theorem c9_index_error_not_isolated (st : KVState) (k : String) (v : JVal) (r : ℚ) :
    KVStoreWithIndex.set true true 0 r k v st =
      (⟨st.wal ++ [setLine k v], storeSet st.store (.str k) v⟩, .error ()) ∧
    KVStoreWithIndex.delete true true 0 r k st =
      (⟨st.wal ++ [delLine k], storePop st.store (.str k)⟩, .error ()) ∧
    KVStoreWithIndex.bulk_set true true 0 r [(k, v)] st =
      (⟨st.wal ++ [bulkLine [(k, v)]], storeSet st.store (.str k) v⟩, .error ()) := by
  refine ⟨?_, ?_, ?_⟩
  · rw [KVStoreWithIndex.set, set_step]
    show (if (storeGet (storeSet st.store (.str k) v) (.str k)).isSome then _ else _) = _
    rw [storeGet_set_self]
    rfl
  · rw [KVStoreWithIndex.delete, delete_step]
    rfl
  · rw [KVStoreWithIndex.bulk_set, bulk_step _ _ _ (List.cons_ne_nil _ _)]
    show (if true && List.any [(k, v)] _ then _ else _) = _
    rw [show List.any [(k, v)] (fun p => (storeGet (bulkApply st.store [(k, v)])
        (.str p.1)).isSome) = true from by
      rw [List.any_cons]
      show ((storeGet (storeSet st.store (.str k) v) (.str k)).isSome || false) = true
      rw [storeGet_set_self]
      rfl]
    rfl

/-- **C10** (implicit): after a successful `set(k, null)` the key IS in
the map with value `null`, yet the read path cannot tell it from an
absent key: `KVStore.get` returns `None` exactly as for a never-set or
deleted key, and HTTP `/get` answers `404 {"found": false}` just as on an
empty store. -/
theorem c10_null_indistinguishable (st : KVState) (k : String) (r r2 : ℚ)
    (hwf : storeWf st.store) :
    (KVStore.set true 0 r k .null st).2 = .ok () ∧
    storeGet (KVStore.set true 0 r k .null st).1.store (.str k) = some .null ∧
    KVStore.get (KVStore.set true 0 r k .null st).1 k = .null ∧
    KVStore.get KVState.init k = .null ∧
    KVStore.get (KVStore.delete true 0 r2 k (KVStore.set true 0 r k .null st).1).1 k
      = .null ∧
    httpGet (KVStore.set true 0 r k .null st).1 k = ⟨404, .obj [("found", .bool false)]⟩ ∧
    httpGet KVState.init k = ⟨404, .obj [("found", .bool false)]⟩ := by
  have hget : KVStore.get (KVStore.set true 0 r k .null st).1 k = .null := by
    rw [set_step]
    show (storeGet (storeSet st.store (.str k) .null) (.str k)).getD .null = .null
    rw [storeGet_set_self]
    rfl
  have hinit : KVStore.get KVState.init k = .null := rfl
  refine ⟨by rw [set_step], ?_, hget, hinit, ?_, ?_, ?_⟩
  · rw [set_step]
    exact storeGet_set_self st.store (.str k) .null
  · rw [set_step, delete_step]
    show (storeGet (storePop (storeSet st.store (.str k) .null) (.str k)) (.str k)).getD
      .null = .null
    rw [storeGet_pop_self _ _ (storeWf_set st.store (.str k) .null hwf)]
    rfl
  · rw [httpGet, hget]
    rfl
  · rw [httpGet, hinit]
    rfl

/-- Witness for C10 on a fresh engine. -/
theorem c10_null_indistinguishable_witness :
    storeWf KVState.init.store ∧
    storeGet (KVStore.set true 0 0 "a" .null KVState.init).1.store (.str "a")
      = some .null ∧
    KVStore.get (KVStore.set true 0 0 "a" .null KVState.init).1 "a" = .null ∧
    httpGet (KVStore.set true 0 0 "a" .null KVState.init).1 "a" =
      ⟨404, .obj [("found", .bool false)]⟩ :=
  ⟨List.nodup_nil,
    (c10_null_indistinguishable KVState.init "a" 0 0 List.nodup_nil).2.1,
    (c10_null_indistinguishable KVState.init "a" 0 0 List.nodup_nil).2.2.1,
    (c10_null_indistinguishable KVState.init "a" 0 0 List.nodup_nil).2.2.2.2.2.1⟩

end KV
